import Mathlib

/-!
Verification of the glyph-to-SVG pipeline in `data_process/tosvgjpg.py`
and `data_process/to_data_json.py`.

Strings are modelled as `List Char`.  Python floats are modelled exactly
over `ℚ`: every numeric token the pipeline handles is a short decimal
literal whose `float` value rounds to the same integer as its exact
rational value, and Python's `round` (banker's rounding, half-to-even)
is modelled on `ℚ`.  Python's `int()` on a float truncates toward zero,
modelled by `pyInt`.
-/

namespace TTFSVG

/-- `\d` of the regexes in `tosvgjpg.py`. -/
def isDig (c : Char) : Bool := c.isDigit

/-- First character is a digit. -/
def headDig : List Char → Bool
  | [] => false
  | c :: _ => isDig c

/-- The optional exponent part `(?:e[-+]?\d+)?` of the number regex in
`round_path_data` (`tosvgjpg.py` line 71); `none` when the group does not
match at this position.  The pattern is case sensitive (`re.sub` is called
without flags), so only a lowercase `e` is recognised. -/
def matchExp (l : List Char) : Option (List Char × List Char) :=
  match l with
  | [] => none
  | c :: r =>
    if c = 'e' then
      match r with
      | [] => none
      | d :: r2 =>
        if d = '+' ∨ d = '-' then
          if headDig r2 then
            some ('e' :: d :: r2.takeWhile isDig, r2.dropWhile isDig)
          else none
        else
          if isDig d then
            some ('e' :: (d :: r2).takeWhile isDig, (d :: r2).dropWhile isDig)
          else none
    else none

/-- After the integer part `\d+` has been consumed: the `\.?\d*` part and
the optional exponent of the regex `-?\d+\.?\d*(?:e[-+]?\d+)?`. -/
def matchAfterInt (l : List Char) : List Char × List Char :=
  match l with
  | [] => ([], [])
  | c :: r =>
    if c = '.' then
      let ds := r.takeWhile isDig
      let r2 := r.dropWhile isDig
      match matchExp r2 with
      | some (ex, r3) => ('.' :: (ds ++ ex), r3)
      | none => ('.' :: ds, r2)
    else
      match matchExp (c :: r) with
      | some (ex, r3) => (ex, r3)
      | none => ([], c :: r)

/-- Match of the number regex `-?\d+\.?\d*(?:e[-+]?\d+)?` of
`round_path_data` at the current position: the matched token and the rest
of the string, or `none` if the regex does not match here. -/
def matchNumber (l : List Char) : Option (List Char × List Char) :=
  match l with
  | [] => none
  | c :: r =>
    if c = '-' then
      if headDig r then
        let ds := r.takeWhile isDig
        let p := matchAfterInt (r.dropWhile isDig)
        some ('-' :: (ds ++ p.1), p.2)
      else none
    else
      if isDig c then
        let ds := (c :: r).takeWhile isDig
        let p := matchAfterInt ((c :: r).dropWhile isDig)
        some (ds ++ p.1, p.2)
      else none

/-- Numeric value of a digit character. -/
def digVal (c : Char) : ℕ := c.toNat - 48

/-- Value of a big-endian digit string. -/
def natOfDigs (l : List Char) : ℕ := l.foldl (fun n c => 10 * n + digVal c) 0

/-- Value of the exponent suffix of a matched token (`[]` when absent). -/
def expVal (l : List Char) : ℤ :=
  match l with
  | 'e' :: '+' :: ds => (natOfDigs ds : ℤ)
  | 'e' :: '-' :: ds => -(natOfDigs ds : ℤ)
  | 'e' :: ds => (natOfDigs ds : ℤ)
  | _ => 0

/-- Parsed pieces of an unsigned token of shape
`\d+\.?\d*(?:e[-+]?\d+)?`: integer-part digits, fraction digits, and the
exponent suffix. -/
def tokParts (t : List Char) : List Char × List Char × List Char :=
  let ip := t.takeWhile isDig
  let r := t.dropWhile isDig
  match r with
  | '.' :: r2 => (ip, r2.takeWhile isDig, r2.dropWhile isDig)
  | _ => (ip, [], r)

/-- Exact rational value of an unsigned token: Python `float()` modelled
exactly on `ℚ`. -/
def mantVal (t : List Char) : ℚ :=
  let p := tokParts t
  ((natOfDigs p.1 : ℚ) + (natOfDigs p.2.1 : ℚ) / 10 ^ p.2.1.length) * 10 ^ expVal p.2.2

/-- Exact rational value of a matched token (with optional leading `-`). -/
def tokVal (t : List Char) : ℚ :=
  match t with
  | [] => 0
  | c :: r => if c = '-' then -(mantVal r) else mantVal (c :: r)

/-- Python `round` to an integer: round-half-to-even (banker's rounding). -/
def pyRound (q : ℚ) : ℤ :=
  if q - (⌊q⌋ : ℚ) < 1/2 then ⌊q⌋
  else if (1 : ℚ)/2 < q - (⌊q⌋ : ℚ) then ⌊q⌋ + 1
  else if ⌊q⌋ % 2 = 0 then ⌊q⌋ else ⌊q⌋ + 1

/-- Signed integer mantissa of a token: for an unsigned token with
integer part `ip`, fraction digits `fd` (`k` of them) and exponent `E`,
the exact value is `(ip·10^k + fd) · 10^(E-k)`; this is the first
factor. -/
def mantM (t : List Char) : ℤ :=
  let p := tokParts t
  (natOfDigs p.1 * 10 ^ p.2.1.length + natOfDigs p.2.1 : ℕ)

/-- The power-of-ten exponent `E - k` of the exact token value. -/
def mantE (t : List Char) : ℤ :=
  let p := tokParts t
  expVal p.2.2 - p.2.1.length

/-- Round-half-to-even of the fraction `m / 10^d`, in integer
arithmetic (`Int./` is Euclidean division, which is the floor here). -/
def roundHalfEvenDiv (m : ℤ) (d : ℕ) : ℤ :=
  let D : ℤ := (10 : ℤ) ^ d
  let n := m / D
  let r := m - n * D
  if 2 * r < D then n
  else if D < 2 * r then n + 1
  else if n % 2 = 0 then n else n + 1

/-- Round-half-to-even of `m · 10^e`, in integer arithmetic. -/
def tokRoundM (m e : ℤ) : ℤ :=
  if 0 ≤ e then m * 10 ^ e.toNat else roundHalfEvenDiv m (-e).toNat

/-- `int(round(float(token)))` computed purely with integer arithmetic;
`tokRound_eq_pyRound` identifies it with `pyRound` of the exact token
value. -/
def tokRound (t : List Char) : ℤ :=
  match t with
  | [] => 0
  | c :: r =>
    if c = '-' then tokRoundM (-mantM r) (mantE r)
    else tokRoundM (mantM (c :: r)) (mantE (c :: r))

/-- Decimal digit character for a value below ten. -/
def digChar (d : ℕ) : Char :=
  if d = 0 then '0' else if d = 1 then '1' else if d = 2 then '2'
  else if d = 3 then '3' else if d = 4 then '4' else if d = 5 then '5'
  else if d = 6 then '6' else if d = 7 then '7' else if d = 8 then '8' else '9'

/-- Little-endian base-`b` digits with explicit fuel, so that the kernel
can evaluate it; `digitsF_eq_digits` identifies it with `Nat.digits`. -/
def digitsF (b : ℕ) : ℕ → ℕ → List ℕ
  | 0, _ => []
  | fuel + 1, n => if n = 0 then [] else n % b :: digitsF b fuel (n / b)

/-- Python `str` of a nonnegative integer. -/
def natChars (n : ℕ) : List Char :=
  if n = 0 then ['0'] else ((digitsF 10 n n).map digChar).reverse

/-- Python `str` of an integer, as in `str(int(round(...)))`. -/
def intChars (k : ℤ) : List Char :=
  if k < 0 then '-' :: natChars k.natAbs else natChars k.toNat

/-- Fuelled scanner for `round_path_data`; the fuel only serves to make
the recursion structural (hence kernel-computable) and is irrelevant as
soon as it is at least the length of the input
(`rpdF_fuel_irrelevant`). -/
def rpdF : ℕ → List Char → List Char
  | 0, _ => []
  | _, [] => []
  | fuel + 1, c :: r =>
    match matchNumber (c :: r) with
    | some p => intChars (tokRound p.1) ++ rpdF fuel p.2
    | none => c :: rpdF fuel r

/-- `round_path_data` (`tosvgjpg.py` lines 64-71): replace every match of
the number regex by `str(int(round(float(token))))`, scanning left to
right exactly as `re.sub` does (non-overlapping leftmost matches, one
character of progress where the regex does not match). -/
def roundPathData (l : List Char) : List Char := rpdF l.length l

/-- Command letters of `add_space_around_commands` (`tosvgjpg.py` line 80). -/
def isCmd (c : Char) : Bool :=
  c == 'M' || c == 'L' || c == 'H' || c == 'V' || c == 'C' ||
  c == 'S' || c == 'Q' || c == 'T' || c == 'A' || c == 'Z' ||
  c == 'm' || c == 'l' || c == 'h' || c == 'v' || c == 'c' ||
  c == 's' || c == 'q' || c == 't' || c == 'a' || c == 'z'

/-- First substitution of `add_space_around_commands`: a space is inserted
before every command letter that directly follows a digit
(`re.sub` with pattern `(?<=\d)([cmds])`, lookbehind on the original
string, each match consuming exactly the command letter). -/
def sub1 : List Char → List Char
  | [] => []
  | [c] => [c]
  | a :: b :: r =>
    if isDig a && isCmd b then a :: ' ' :: sub1 (b :: r)
    else a :: sub1 (b :: r)

/-- Second substitution: a space is inserted after every command letter
that is directly followed by a digit (pattern `([cmds])(?=\d)`). -/
def sub2 : List Char → List Char
  | [] => []
  | [c] => [c]
  | a :: b :: r =>
    if isCmd a && isDig b then a :: ' ' :: sub2 (b :: r)
    else a :: sub2 (b :: r)

/-- Characters matched by `\s` in a Python `str` regex and stripped by
`str.strip()` (CPython `Py_UNICODE_ISSPACE`): `0x09`-`0x0D`, `0x1C`-`0x1F`,
space, `0x85`, `0xA0`, `0x1680`, `0x2000`-`0x200A`, `0x2028`, `0x2029`,
`0x202F`, `0x205F`, `0x3000`. -/
def isPySpace (c : Char) : Bool :=
  c.toNat == 32 || (9 ≤ c.toNat && c.toNat ≤ 13) || (28 ≤ c.toNat && c.toNat ≤ 31) ||
  c.toNat == 133 || c.toNat == 160 || c.toNat == 5760 ||
  (8192 ≤ c.toNat && c.toNat ≤ 8202) || c.toNat == 8232 || c.toNat == 8233 ||
  c.toNat == 8239 || c.toNat == 8287 || c.toNat == 12288

/-- One-pass form of the whitespace collapse: the flag records whether
the scanner is inside a whitespace run whose single replacement space has
already been emitted. -/
def collWsGo : Bool → List Char → List Char
  | _, [] => []
  | inRun, c :: r =>
    if isPySpace c then
      if inRun then collWsGo true r else ' ' :: collWsGo true r
    else c :: collWsGo false r

/-- Third substitution of `add_space_around_commands`:
`re.sub` with pattern `\s+` — every maximal whitespace run becomes one
single space. -/
def collapseWs (l : List Char) : List Char := collWsGo false l

/-- Python `str.strip()`: leading and trailing whitespace removed. -/
def pyStrip (l : List Char) : List Char :=
  ((l.dropWhile isPySpace).reverse.dropWhile isPySpace).reverse

/-- `add_space_around_commands` (`tosvgjpg.py` lines 73-86). -/
def addSpace (l : List Char) : List Char :=
  pyStrip (collapseWs (sub2 (sub1 l)))

/-- The canonicalization applied to the raw path text in
`export_svg_for_glyph_dynamic` (lines 119-120): rounding, then spacing. -/
def canonize (l : List Char) : List Char := addSpace (roundPathData l)

/-- Python `int()` on a real value: truncation toward zero. -/
def pyInt (q : ℚ) : ℤ := if q < 0 then -⌊-q⌋ else ⌊q⌋

/-- `get_glyph_bounds` (`tosvgjpg.py` lines 39-62) in the `RecordingPen`
branch: componentwise min/max over every coordinate referenced by the
outline commands, and the degenerate box `(0,0,0,0)` when the outline
references no coordinate at all. -/
def getGlyphBounds (pts : List (ℚ × ℚ)) : ℚ × ℚ × ℚ × ℚ :=
  match pts with
  | [] => (0, 0, 0, 0)
  | p :: rest =>
      ((rest.map Prod.fst).foldl min p.1,
       (rest.map Prod.snd).foldl min p.2,
       (rest.map Prod.fst).foldl max p.1,
       (rest.map Prod.snd).foldl max p.2)

/-- Result of `export_svg_for_glyph_dynamic`: the affine transform
coefficients, the integer written into the `viewBox`/`width`/`height`
attributes, and the `d` attribute of the single path element. -/
structure SvgOut where
  ta : ℚ
  tb : ℚ
  tc : ℚ
  td : ℚ
  te : ℚ
  tf : ℚ
  widthAttr : ℤ
  heightAttr : ℤ
  dAttr : List Char

/-- `export_svg_for_glyph_dynamic` (`tosvgjpg.py` lines 89-130).  The
fontTools pens are abstracted: `raw` is the text returned by
`SVGPathPen.getCommands()` for the transformed outline (the empty string
for an empty outline); everything from line 100 on is modelled
faithfully, including the degenerate-box fallback, the transform, the
canonicalization of the path text, the `"M0 0"` fallback and the
truncating `int()` on the scaled dimensions. -/
def exportSvg (xmin ymin xmax ymax : ℚ) (raw : List Char) (scaleSize : ℚ) : SvgOut :=
  let width0 := xmax - xmin
  let height0 := ymax - ymin
  let width := if width0 = 0 ∨ height0 = 0 then scaleSize else width0
  let height := if width0 = 0 ∨ height0 = 0 then scaleSize else height0
  let scale := scaleSize / max width height
  let d1 := addSpace (roundPathData (pyStrip raw))
  { ta := scale, tb := 0, tc := 0, td := -scale,
    te := -xmin * scale, tf := ymax * scale,
    widthAttr := pyInt (width * scale),
    heightAttr := pyInt (height * scale),
    dAttr := if d1 = [] then ['M', '0', ' ', '0'] else d1 }

/-- The reserved filesystem characters of `bad_chars` in
`safe_name_for_file` (both modules). -/
def badChar (c : Char) : Bool :=
  c == '/' || c == '\\' || c == ':' || c == '*' || c == '?' ||
  c == '"' || c == '<' || c == '>' || c == '|'

/-- Uppercase hexadecimal digit character. -/
def hexChar (d : ℕ) : Char :=
  if d < 10 then digChar d
  else if d = 10 then 'A' else if d = 11 then 'B' else if d = 12 then 'C'
  else if d = 13 then 'D' else if d = 14 then 'E' else 'F'

/-- Uppercase hexadecimal rendering of a natural number, no padding. -/
def hexChars (n : ℕ) : List Char :=
  if n = 0 then ['0'] else ((digitsF 16 n n).map hexChar).reverse

/-- Python `f"U+{cp:04X}"`: `U+`, then the uppercase hexadecimal form of
`cp`, zero-padded on the left to at least four digits. -/
def uPlus (cp : ℕ) : List Char :=
  'U' :: '+' :: (List.replicate (4 - (hexChars cp).length) '0' ++ hexChars cp)

/-- `safe_name_for_file` in `tosvgjpg.py` (lines 25-37).  The two Unicode
predicates of the source, `unicodedata.category(char).startswith("C")`
and `char.isspace()`, are passed in as oracles `catC` and `sp`. -/
def safeNameSvg (catC sp : Char → Bool) (ch : Char) (cp : ℕ) : List Char :=
  if badChar ch then uPlus cp
  else if catC ch || sp ch then uPlus cp
  else [ch]

/-- `safe_name_for_file` in `to_data_json.py` (lines 22-34): same body,
with the code point defaulting to `ord(char)` when not supplied. -/
def safeNameJson (catC sp : Char → Bool) (ch : Char) (cpOpt : Option ℕ) : List Char :=
  let cp := cpOpt.getD ch.toNat
  if badChar ch then uPlus cp
  else if catC ch || sp ch then uPlus cp
  else [ch]

/-- The §4.3 transform of the spec, written from the spec text for the
refinement comparison of claim C1: width and height from the bounding box
with the degenerate fallback, `scale = S / max(w, h)`, coefficients
`(scale, 0, 0, -scale, -xmin·scale, ymax·scale)`. -/
def specTransform (xmin ymin xmax ymax scaleSize : ℚ) : ℚ × ℚ × ℚ × ℚ × ℚ × ℚ :=
  let w0 := xmax - xmin
  let h0 := ymax - ymin
  let w := if w0 = 0 ∨ h0 = 0 then scaleSize else w0
  let h := if w0 = 0 ∨ h0 = 0 then scaleSize else h0
  let scale := scaleSize / max w h
  (scale, 0, 0, -scale, -xmin * scale, ymax * scale)

/-- Modelled from the spec: round-half-away-from-zero, the tie rule that
§4.5 step 2 of the spec claims for the numeric rounding. -/
def roundHalfAway (q : ℚ) : ℤ := if q < 0 then -⌊-q + 1/2⌋ else ⌊q + 1/2⌋

/-- Fuelled companion of the `round_path_data` scan that keeps exactly
the characters not belonging to any matched numeric token. -/
def nonTokF : ℕ → List Char → List Char
  | 0, _ => []
  | _, [] => []
  | fuel + 1, c :: r =>
    match matchNumber (c :: r) with
    | some p => nonTokF fuel p.2
    | none => c :: nonTokF fuel r

/-- The characters of `l` that are not part of any numeric token of the
`round_path_data` scan, in their original order. -/
def nonTokChars (l : List Char) : List Char := nonTokF l.length l

/-- All adjacent pairs of the list satisfy `p`. -/
def pairsOK (p : Char → Char → Bool) : List Char → Bool
  | [] => true
  | [_] => true
  | a :: b :: r => p a b && pairsOK p (b :: r)

/-- The adjacency C7 claims for canonical output: a command letter may
only sit next to a space or a digit (string ends are covered by the pair
scan never inspecting them). -/
def c7Pair (a b : Char) : Bool :=
  (!(isCmd b) || (a == ' ' || isDig a)) && (!(isCmd a) || (b == ' ' || isDig b))

/-- The adjacency that actually holds: no command letter directly next
to a digit. -/
def noCmdDigitPair (a b : Char) : Bool :=
  !(isDig a && isCmd b) && !(isCmd a && isDig b)

/-- The adjacency invariants of a canonical-form string: no digit next
to a command letter on either side, and no two adjacent whitespace
characters. -/
def canonPair (a b : Char) : Prop :=
  (isDig a && isCmd b) = false ∧ (isCmd a && isDig b) = false ∧
  (isPySpace a && isPySpace b) = false

/-- A single command letter, as one token of a canonical-form string. -/
def tokOKcmd (t : List Char) : Bool :=
  match t with
  | [c] => isCmd c
  | _ => false

/-- A canonical integer token: it is exactly the rendering of its own
rounding, i.e. `str(int(...))` output shape. -/
def tokOKint (t : List Char) : Bool := t == intChars (tokRound t)

/-- One token of a canonical-form string. -/
def tokOK (t : List Char) : Bool := tokOKcmd t || tokOKint t

/-- Canonical form: command letters and canonical integer tokens
separated by single spaces (the §4.5 output grammar
`(CommandLetter Number*)+` with single-space separators). -/
def canonForm (l : List Char) : Bool :=
  l.isEmpty || ((l.splitOn ' ').all fun t => tokOK t)

/-- Token-list structure of a canonical-form string: tokens separated by
single spaces. -/
inductive TokList : List Char → Prop where
  | single (t : List Char) : tokOK t = true → TokList t
  | cons (t r : List Char) : tokOK t = true → TokList r → TokList (t ++ ' ' :: r)

/-- Uppercase hexadecimal digit characters. -/
def isHexUp (c : Char) : Bool :=
  isDig c || c == 'A' || c == 'B' || c == 'C' || c == 'D' || c == 'E' || c == 'F'

/-- Value of an uppercase hexadecimal digit character. -/
def hexVal (c : Char) : ℕ := if isDig c then c.toNat - 48 else c.toNat - 55

/-- Value of a big-endian uppercase hexadecimal digit string. -/
def natOfHex (l : List Char) : ℕ := l.foldl (fun n c => 16 * n + hexVal c) 0

theorem matchExp_spec {l t r : List Char} (h : matchExp l = some (t, r)) :
    t ++ r = l ∧ t ≠ [] := by
  unfold matchExp at h
  match l with
  | [] => simp at h
  | c :: l' =>
    simp only at h
    split_ifs at h with hc
    · subst hc
      match l' with
      | [] => simp at h
      | d :: r2 =>
        simp only at h
        split_ifs at h with hd hdig hdig <;>
          simp only [Option.some.injEq, Prod.mk.injEq] at h <;>
          obtain ⟨ht, hr⟩ := h <;> subst ht <;> subst hr <;>
          simp [List.takeWhile_append_dropWhile]

theorem matchAfterInt_spec (l : List Char) :
    (matchAfterInt l).1 ++ (matchAfterInt l).2 = l := by
  unfold matchAfterInt
  match l with
  | [] => simp
  | c :: r =>
    simp only
    split_ifs with hc
    · subst hc
      cases hme : matchExp (r.dropWhile isDig) with
      | none => simp [List.takeWhile_append_dropWhile]
      | some p =>
        obtain ⟨ex, r3⟩ := p
        obtain ⟨he, _⟩ := matchExp_spec hme
        simp only [List.cons_append, List.append_assoc, he]
        simp [List.takeWhile_append_dropWhile]
    · cases hme : matchExp (c :: r) with
      | none => simp
      | some p =>
        obtain ⟨ex, r3⟩ := p
        obtain ⟨he, _⟩ := matchExp_spec hme
        simp [he]

theorem matchNumber_spec {l t r : List Char} (h : matchNumber l = some (t, r)) :
    t ++ r = l ∧ t ≠ [] := by
  unfold matchNumber at h
  match l with
  | [] => simp at h
  | c :: l' =>
    simp only at h
    split_ifs at h with hc hd hdig
    · simp only [Option.some.injEq, Prod.mk.injEq] at h
      obtain ⟨ht, hr⟩ := h
      subst ht; subst hr
      refine ⟨?_, by simp⟩
      have := matchAfterInt_spec (l'.dropWhile isDig)
      simp only [List.cons_append, List.append_assoc, this]
      simp [List.takeWhile_append_dropWhile, hc]
    · simp only [Option.some.injEq, Prod.mk.injEq] at h
      obtain ⟨ht, hr⟩ := h
      subst ht; subst hr
      constructor
      · have := matchAfterInt_spec ((c :: l').dropWhile isDig)
        simp only [List.append_assoc, this]
        simp [List.takeWhile_append_dropWhile]
      · simp [List.takeWhile, hdig]

theorem matchNumber_rest_lt {l t r : List Char} (h : matchNumber l = some (t, r)) :
    r.length < l.length := by
  obtain ⟨happ, hne⟩ := matchNumber_spec h
  have : t.length + r.length = l.length := by
    rw [← happ, List.length_append]
  have ht : 0 < t.length := List.length_pos.mpr hne
  omega

theorem digitsF_eq_digits (b : ℕ) (hb : 2 ≤ b) :
    ∀ fuel n, n ≤ fuel → digitsF b fuel n = Nat.digits b n := by
  intro fuel
  induction fuel with
  | zero =>
    intro n hn
    interval_cases n
    simp [digitsF]
  | succ fuel ih =>
    intro n hn
    by_cases h0 : n = 0
    · subst h0; simp [digitsF]
    · have hlt : n / b < n := Nat.div_lt_self (Nat.pos_of_ne_zero h0) (by omega)
      rw [show digitsF b (fuel + 1) n = n % b :: digitsF b fuel (n / b) by
            simp [digitsF, h0],
          ih (n / b) (by omega),
          Nat.digits_def' (by omega : 1 < b) (Nat.pos_of_ne_zero h0)]

theorem rpdF_fuel_irrelevant :
    ∀ fuel l, l.length ≤ fuel → rpdF fuel l = roundPathData l := by
  intro fuel
  induction fuel using Nat.strong_induction_on with
  | _ fuel ih =>
    intro l hl
    cases l with
    | nil => cases fuel <;> rfl
    | cons c r =>
      cases fuel with
      | zero => simp at hl
      | succ fuel =>
        show rpdF (fuel + 1) (c :: r) = rpdF (r.length + 1) (c :: r)
        simp only [rpdF]
        simp only [List.length_cons] at hl
        cases h : matchNumber (c :: r) with
        | some p =>
          have hlt : p.2.length < r.length + 1 := by
            have := matchNumber_rest_lt (h.trans rfl)
            simpa using this
          dsimp only
          rw [ih fuel (Nat.lt_succ_self fuel) p.2 (by omega),
              ih r.length (by omega) p.2 (by omega)]
        | none =>
          dsimp only
          rw [ih fuel (Nat.lt_succ_self fuel) r (by omega),
              ih r.length (by omega) r (le_refl _)]

theorem pyInt_eq_floor {q : ℚ} (h : 0 ≤ q) : pyInt q = ⌊q⌋ := by
  unfold pyInt
  rw [if_neg (not_lt.mpr h)]

theorem pyInt_intCast (n : ℤ) : pyInt (n : ℚ) = n := by
  unfold pyInt
  split_ifs with h
  · rw [← Int.cast_neg, Int.floor_intCast, neg_neg]
  · exact Int.floor_intCast n

/-- C1: for every glyph bounding box `(xmin, ymin, xmax, ymax)` with
width and height replaced by `S` when either is zero,
`export_svg_for_glyph_dynamic` builds the affine transform
`a = scale, b = 0, c = 0, d = -scale, e = -xmin·scale, f = ymax·scale`
where `scale = S / max(w, h)`; for bounding box `(0,0,100,200)` and
`S = 1024` the scale is `5.12` (= `128/25`), `e = 0`, `f = 1024`, and
the emitted canvas is `512` by `1024`. -/
theorem claim_C1 :
    (∀ xmin ymin xmax ymax raw scaleSize,
      ((exportSvg xmin ymin xmax ymax raw scaleSize).ta,
       (exportSvg xmin ymin xmax ymax raw scaleSize).tb,
       (exportSvg xmin ymin xmax ymax raw scaleSize).tc,
       (exportSvg xmin ymin xmax ymax raw scaleSize).td,
       (exportSvg xmin ymin xmax ymax raw scaleSize).te,
       (exportSvg xmin ymin xmax ymax raw scaleSize).tf) =
        specTransform xmin ymin xmax ymax scaleSize) ∧
    (exportSvg 0 0 100 200 [] 1024).ta = 128 / 25 ∧
    (exportSvg 0 0 100 200 [] 1024).te = 0 ∧
    (exportSvg 0 0 100 200 [] 1024).tf = 1024 ∧
    (exportSvg 0 0 100 200 [] 1024).widthAttr = 512 ∧
    (exportSvg 0 0 100 200 [] 1024).heightAttr = 1024 := by
  have hmax : max (100 : ℚ) 200 = 200 := max_eq_right (by norm_num)
  refine ⟨fun xmin ymin xmax ymax raw scaleSize => rfl, ?_, ?_, ?_, ?_, ?_⟩ <;>
    simp only [exportSvg] <;>
    norm_num [hmax]
  · rw [pyInt_eq_floor (by norm_num)]
    norm_num
  · rw [pyInt_eq_floor (by norm_num)]
    norm_num

/-- C4: a glyph with an empty outline program (no coordinates collected,
so `get_glyph_bounds` returns the degenerate box `(0,0,0,0)`, and the pen
renders the empty string) yields a document whose width and height
attributes both equal the canvas size and whose path data is the fallback
`"M0 0"`. -/
theorem claim_C4 (n : ℤ) (hn : 0 < n) :
    getGlyphBounds [] = (0, 0, 0, 0) ∧
    (exportSvg 0 0 0 0 [] (n : ℚ)).widthAttr = n ∧
    (exportSvg 0 0 0 0 [] (n : ℚ)).heightAttr = n ∧
    (exportSvg 0 0 0 0 [] (n : ℚ)).dAttr = ['M', '0', ' ', '0'] := by
  have hne : ((n : ℚ)) ≠ 0 := by
    exact_mod_cast (by omega : n ≠ 0)
  refine ⟨rfl, ?_, ?_, rfl⟩ <;>
    · simp only [exportSvg]
      norm_num [max_self, div_self hne, pyInt_intCast]

theorem claim_C4_witness :
    0 < (1024 : ℤ) ∧
    (getGlyphBounds [] = (0, 0, 0, 0) ∧
     (exportSvg 0 0 0 0 [] ((1024 : ℤ) : ℚ)).widthAttr = 1024 ∧
     (exportSvg 0 0 0 0 [] ((1024 : ℤ) : ℚ)).heightAttr = 1024 ∧
     (exportSvg 0 0 0 0 [] ((1024 : ℤ) : ℚ)).dAttr = ['M', '0', ' ', '0']) :=
  ⟨by decide, claim_C4 1024 (by decide)⟩

/-- C5: for every glyph with non-degenerate bounds, the larger of the two
integer dimensions emitted in the document equals the configured canvas
size exactly. -/
theorem claim_C5 (xmin ymin xmax ymax : ℚ) (raw : List Char) (n : ℤ)
    (hx : xmin < xmax) (hy : ymin < ymax) (hn : 0 < n) :
    max (exportSvg xmin ymin xmax ymax raw (n : ℚ)).widthAttr
        (exportSvg xmin ymin xmax ymax raw (n : ℚ)).heightAttr = n := by
  have hw : (0 : ℚ) < xmax - xmin := sub_pos.mpr hx
  have hh : (0 : ℚ) < ymax - ymin := sub_pos.mpr hy
  have hcond : ¬(xmax - xmin = 0 ∨ ymax - ymin = 0) := by
    push_neg
    exact ⟨ne_of_gt hw, ne_of_gt hh⟩
  have hn0 : (0 : ℚ) ≤ (n : ℚ) := by exact_mod_cast hn.le
  simp only [exportSvg, if_neg hcond]
  rcases le_total (ymax - ymin) (xmax - xmin) with hmx | hmx
  · rw [max_eq_left hmx]
    have he : (xmax - xmin) * ((n : ℚ) / (xmax - xmin)) = ((n : ℤ) : ℚ) := by
      field_simp
    rw [he, pyInt_intCast]
    have hle : (ymax - ymin) * ((n : ℚ) / (xmax - xmin)) ≤ ((n : ℤ) : ℚ) := by
      calc (ymax - ymin) * ((n : ℚ) / (xmax - xmin))
          ≤ (xmax - xmin) * ((n : ℚ) / (xmax - xmin)) := by
            apply mul_le_mul_of_nonneg_right hmx
            positivity
        _ = ((n : ℤ) : ℚ) := he
    have hnn : (0 : ℚ) ≤ (ymax - ymin) * ((n : ℚ) / (xmax - xmin)) := by positivity
    have hfl : pyInt ((ymax - ymin) * ((n : ℚ) / (xmax - xmin))) ≤ n := by
      rw [pyInt_eq_floor hnn]
      exact (Int.floor_mono hle).trans_eq (Int.floor_intCast n)
    exact max_eq_left hfl
  · rw [max_eq_right hmx]
    have he : (ymax - ymin) * ((n : ℚ) / (ymax - ymin)) = ((n : ℤ) : ℚ) := by
      field_simp
    rw [he, pyInt_intCast]
    have hle : (xmax - xmin) * ((n : ℚ) / (ymax - ymin)) ≤ ((n : ℤ) : ℚ) := by
      calc (xmax - xmin) * ((n : ℚ) / (ymax - ymin))
          ≤ (ymax - ymin) * ((n : ℚ) / (ymax - ymin)) := by
            apply mul_le_mul_of_nonneg_right hmx
            positivity
        _ = ((n : ℤ) : ℚ) := he
    have hnn : (0 : ℚ) ≤ (xmax - xmin) * ((n : ℚ) / (ymax - ymin)) := by positivity
    have hfl : pyInt ((xmax - xmin) * ((n : ℚ) / (ymax - ymin))) ≤ n := by
      rw [pyInt_eq_floor hnn]
      exact (Int.floor_mono hle).trans_eq (Int.floor_intCast n)
    exact max_eq_right hfl

theorem claim_C5_witness :
    (0 : ℚ) < 3 ∧ (0 : ℚ) < 2 ∧ 0 < (1024 : ℤ) ∧
    max (exportSvg 0 0 3 2 [] ((1024 : ℤ) : ℚ)).widthAttr
        (exportSvg 0 0 3 2 [] ((1024 : ℤ) : ℚ)).heightAttr = 1024 :=
  ⟨by decide, by decide, by decide, claim_C5 0 0 3 2 [] 1024 (by decide) (by decide) (by decide)⟩

/-- C8 counterexample: for bounding box `(0,0,3,2)` and canvas size 1024
the emitted height attribute is `682`, the truncation of the scaled
height `2048/3 ≈ 682.67`, while the nearest integer — which the claim
says is written — is `683`. -/
theorem claim_C8_counterexample :
    (exportSvg 0 0 3 2 [] 1024).heightAttr = 682 ∧
    round ((2 : ℚ) * (1024 / 3)) = 683 ∧ (682 : ℤ) ≠ 683 := by
  have hmax : max (3 : ℚ) 2 = 3 := max_eq_left (by norm_num)
  refine ⟨?_, ?_, by decide⟩
  · simp only [exportSvg]
    norm_num [hmax]
    rw [pyInt_eq_floor (by norm_num)]
    norm_num
  · rw [round_eq]
    norm_num

/-- C8 amended: the width and height written into the document are
`int(width·scale)` and `int(height·scale)` — truncation toward zero,
which for the nonnegative scaled dimensions is the floor — not rounding
to the nearest integer. -/
theorem claim_C8_amended (xmin ymin xmax ymax : ℚ) (raw : List Char) (n : ℤ)
    (w h scale : ℚ) (hn : 0 < n) (hx : xmin ≤ xmax) (hy : ymin ≤ ymax)
    (hw : w = if xmax - xmin = 0 ∨ ymax - ymin = 0 then (n : ℚ) else xmax - xmin)
    (hh : h = if xmax - xmin = 0 ∨ ymax - ymin = 0 then (n : ℚ) else ymax - ymin)
    (hs : scale = (n : ℚ) / max w h) :
    (exportSvg xmin ymin xmax ymax raw (n : ℚ)).widthAttr = ⌊w * scale⌋ ∧
    (exportSvg xmin ymin xmax ymax raw (n : ℚ)).heightAttr = ⌊h * scale⌋ := by
  have hn0 : (0 : ℚ) ≤ (n : ℚ) := by exact_mod_cast hn.le
  have hw0 : (0 : ℚ) ≤ w := by
    rw [hw]
    split_ifs
    · exact hn0
    · exact sub_nonneg.mpr hx
  have hs0 : (0 : ℚ) ≤ scale := by
    rw [hs]
    exact div_nonneg hn0 (le_max_of_le_left hw0)
  have hh0 : (0 : ℚ) ≤ h := by
    rw [hh]
    split_ifs
    · exact hn0
    · exact sub_nonneg.mpr hy
  subst hw hh hs
  simp only [exportSvg]
  rw [pyInt_eq_floor (mul_nonneg hw0 hs0), pyInt_eq_floor (mul_nonneg hh0 hs0)]
  exact ⟨rfl, rfl⟩

theorem claim_C8_amended_witness :
    0 < (1024 : ℤ) ∧ (0 : ℚ) ≤ 3 ∧ (0 : ℚ) ≤ 2 ∧
    ((3 : ℚ) = if (3 : ℚ) - 0 = 0 ∨ (2 : ℚ) - 0 = 0 then ((1024 : ℤ) : ℚ) else (3 : ℚ) - 0) ∧
    ((2 : ℚ) = if (3 : ℚ) - 0 = 0 ∨ (2 : ℚ) - 0 = 0 then ((1024 : ℤ) : ℚ) else (2 : ℚ) - 0) ∧
    ((1024 : ℚ) / 3 = ((1024 : ℤ) : ℚ) / max 3 2) ∧
    ((exportSvg 0 0 3 2 [] ((1024 : ℤ) : ℚ)).widthAttr = ⌊(3 : ℚ) * ((1024 : ℚ) / 3)⌋ ∧
     (exportSvg 0 0 3 2 [] ((1024 : ℤ) : ℚ)).heightAttr = ⌊(2 : ℚ) * ((1024 : ℚ) / 3)⌋) :=
  ⟨by decide, by decide, by decide, by norm_num, by norm_num,
   by rw [max_eq_left (by norm_num : (2 : ℚ) ≤ 3)]; norm_num,
   claim_C8_amended 0 0 3 2 [] 1024 3 2 ((1024 : ℚ) / 3) (by decide) (by decide) (by decide)
     (by norm_num) (by norm_num) (by rw [max_eq_left (by norm_num : (2 : ℚ) ≤ 3)]; norm_num)⟩

theorem roundPathData_nil : roundPathData [] = [] := rfl

/-- The defining recursion of the `round_path_data` scanner. -/
theorem roundPathData_cons (c : Char) (r : List Char) :
    roundPathData (c :: r) =
      match matchNumber (c :: r) with
      | some p => intChars (tokRound p.1) ++ roundPathData p.2
      | none => c :: roundPathData r := by
  show rpdF (r.length + 1) (c :: r) = _
  simp only [rpdF]
  cases h : matchNumber (c :: r) with
  | some p =>
    have hlt : p.2.length < r.length + 1 := by
      have := matchNumber_rest_lt (h.trans rfl)
      simpa using this
    dsimp only
    rw [rpdF_fuel_irrelevant r.length p.2 (by omega)]
  | none =>
    dsimp only
    rw [rpdF_fuel_irrelevant r.length r (le_refl _)]

theorem pyRound_intCast (z : ℤ) : pyRound (z : ℚ) = z := by
  unfold pyRound
  rw [Int.floor_intCast, sub_self]
  norm_num

theorem mantVal_eq (t : List Char) :
    mantVal t = ((mantM t : ℤ) : ℚ) * (10 : ℚ) ^ mantE t := by
  unfold mantVal mantM mantE
  have h10 : ((10 : ℚ)) ≠ 0 := by norm_num
  have hp : ((10 : ℚ)) ^ ((tokParts t).2.1.length : ℤ) = (10 : ℚ) ^ (tokParts t).2.1.length :=
    zpow_natCast 10 _
  rw [zpow_sub₀ h10, hp]
  have hpne : ((10 : ℚ)) ^ (tokParts t).2.1.length ≠ 0 := by positivity
  push_cast
  field_simp

theorem pyRound_div_pow (m : ℤ) (d : ℕ) :
    pyRound ((m : ℚ) / (10 : ℚ) ^ d) = roundHalfEvenDiv m d := by
  have hD : (0 : ℤ) < 10 ^ d := by positivity
  have hDq : (0 : ℚ) < (10 : ℚ) ^ d := by positivity
  have hcast : (((10 : ℤ) ^ d : ℤ) : ℚ) = (10 : ℚ) ^ d := by push_cast; ring
  have hfloor : ⌊(m : ℚ) / (10 : ℚ) ^ d⌋ = m / 10 ^ d := by
    have h10 : (((10 ^ d : ℕ) : ℤ) : ℚ) = (10 : ℚ) ^ d := by push_cast; ring
    have h10b : ((10 ^ d : ℕ) : ℚ) = (10 : ℚ) ^ d := by push_cast; ring
    rw [← h10b, Rat.floor_intCast_div_natCast]
    norm_num
  unfold pyRound roundHalfEvenDiv
  rw [hfloor]
  have hfrac : (m : ℚ) / (10 : ℚ) ^ d - ((m / 10 ^ d : ℤ) : ℚ) =
      ((m - m / 10 ^ d * 10 ^ d : ℤ) : ℚ) / (10 : ℚ) ^ d := by
    push_cast
    field_simp
    ring
  rw [hfrac]
  set n : ℤ := m / 10 ^ d with hn
  set r : ℤ := m - n * 10 ^ d with hr
  rcases lt_trichotomy (2 * r) ((10 : ℤ) ^ d) with hc | hc | hc
  · rw [if_pos, if_pos hc]
    rw [div_lt_iff hDq]
    have : ((2 * r : ℤ) : ℚ) < (((10 : ℤ) ^ d : ℤ) : ℚ) := by exact_mod_cast hc
    rw [hcast] at this
    push_cast at this ⊢
    linarith
  · have h1 : ¬((r : ℚ) / (10 : ℚ) ^ d < 1 / 2) := by
      rw [not_lt, le_div_iff hDq]
      have : (((10 : ℤ) ^ d : ℤ) : ℚ) = ((2 * r : ℤ) : ℚ) := by exact_mod_cast hc.symm
      rw [hcast] at this
      push_cast at this ⊢
      linarith
    have h2 : ¬((1 : ℚ) / 2 < (r : ℚ) / (10 : ℚ) ^ d) := by
      rw [not_lt, div_le_iff hDq]
      have : (((10 : ℤ) ^ d : ℤ) : ℚ) = ((2 * r : ℤ) : ℚ) := by exact_mod_cast hc.symm
      rw [hcast] at this
      push_cast at this ⊢
      linarith
    rw [if_neg h1, if_neg h2, if_neg (by omega : ¬(2 * r < (10 : ℤ) ^ d)),
        if_neg (by omega : ¬((10 : ℤ) ^ d < 2 * r))]
  · have h1 : ¬((r : ℚ) / (10 : ℚ) ^ d < 1 / 2) := by
      rw [not_lt, le_div_iff hDq]
      have : (((10 : ℤ) ^ d : ℤ) : ℚ) < ((2 * r : ℤ) : ℚ) := by exact_mod_cast hc
      rw [hcast] at this
      push_cast at this ⊢
      linarith
    have h2 : (1 : ℚ) / 2 < (r : ℚ) / (10 : ℚ) ^ d := by
      rw [div_lt_div_iff (by norm_num) hDq]
      have : (((10 : ℤ) ^ d : ℤ) : ℚ) < ((2 * r : ℤ) : ℚ) := by exact_mod_cast hc
      rw [hcast] at this
      push_cast at this ⊢
      linarith
    rw [if_neg h1, if_pos h2, if_neg (by omega : ¬(2 * r < (10 : ℤ) ^ d)),
        if_pos hc]

theorem tokRoundM_eq (m e : ℤ) :
    tokRoundM m e = pyRound ((m : ℚ) * (10 : ℚ) ^ e) := by
  unfold tokRoundM
  split_ifs with he
  · have he' : e = (e.toNat : ℤ) := (Int.toNat_of_nonneg he).symm
    rw [show (10 : ℚ) ^ e = ((10 ^ e.toNat : ℤ) : ℚ) by
          conv_lhs => rw [he']
          rw [zpow_natCast]
          push_cast
          ring]
    rw [show (m : ℚ) * ((10 ^ e.toNat : ℤ) : ℚ) = ((m * 10 ^ e.toNat : ℤ) : ℚ) by
          push_cast
          ring]
    rw [pyRound_intCast]
  · have he' : e = -(((-e).toNat : ℕ) : ℤ) := by omega
    rw [show (10 : ℚ) ^ e = ((10 : ℚ) ^ ((-e).toNat : ℕ))⁻¹ by
          conv_lhs => rw [he']
          rw [zpow_neg, zpow_natCast]]
    rw [← div_eq_mul_inv, pyRound_div_pow]

theorem tokRound_eq_pyRound (t : List Char) : tokRound t = pyRound (tokVal t) := by
  unfold tokRound tokVal
  cases t with
  | nil =>
    dsimp only
    rw [show ((0 : ℚ)) = (((0 : ℤ)) : ℚ) by norm_num, pyRound_intCast]
  | cons c r =>
    dsimp only
    split_ifs with hc
    · rw [mantVal_eq,
          show -(((mantM r : ℤ) : ℚ) * (10 : ℚ) ^ mantE r) =
            ((-mantM r : ℤ) : ℚ) * (10 : ℚ) ^ mantE r by push_cast; ring,
          tokRoundM_eq]
    · rw [mantVal_eq, tokRoundM_eq]

theorem int_nearest {q : ℚ} {p : ℤ} (hp : |q - (p : ℚ)| ≤ 1 / 2) (z : ℤ) :
    |q - (p : ℚ)| ≤ |q - (z : ℚ)| := by
  rcases eq_or_ne z p with rfl | hne
  · exact le_refl _
  · have h1 : (1 : ℚ) ≤ |(p : ℚ) - (z : ℚ)| := by
      have hz : (1 : ℤ) ≤ |p - z| := Int.one_le_abs (sub_ne_zero.mpr (Ne.symm hne))
      have : ((1 : ℤ) : ℚ) ≤ ((|p - z| : ℤ) : ℚ) := by exact_mod_cast hz
      rw [Int.cast_abs] at this
      push_cast at this ⊢
      linarith
    have h2 : |(p : ℚ) - (z : ℚ)| ≤ |(p : ℚ) - q| + |q - (z : ℚ)| := abs_sub_le _ _ _
    have h3 : |(p : ℚ) - q| = |q - (p : ℚ)| := abs_sub_comm _ _
    linarith

theorem pyRound_dist (q : ℚ) : |q - (pyRound q : ℚ)| ≤ 1 / 2 := by
  have hq1 : ((⌊q⌋ : ℤ) : ℚ) ≤ q := Int.floor_le q
  have hq2 : q < ((⌊q⌋ : ℤ) : ℚ) + 1 := Int.lt_floor_add_one q
  unfold pyRound
  split_ifs with ha hb hc <;>
    [rw [abs_of_nonneg (by linarith)];
     (push_cast; rw [abs_of_nonpos (by linarith)]);
     rw [abs_of_nonneg (by linarith)];
     (push_cast; rw [abs_of_nonpos (by linarith)])] <;>
    push_cast <;> linarith

/-- C2 counterexample: on the token `"2.5"` (exact value `5/2`)
`round_path_data` produces `"2"` — Python `round` is half-to-even —
while round-half-away-from-zero, the tie rule the claim states,
yields `3`. -/
theorem claim_C2_counterexample :
    roundPathData ['2', '.', '5'] = ['2'] ∧
    tokVal ['2', '.', '5'] = 5 / 2 ∧
    intChars (roundHalfAway (5 / 2)) = ['3'] ∧
    (['2'] : List Char) ≠ ['3'] := by
  refine ⟨by decide, ?_, ?_, by decide⟩
  · have hM : mantM ['2', '.', '5'] = 25 := by decide
    have hE : mantE ['2', '.', '5'] = -1 := by decide
    rw [show tokVal ['2', '.', '5'] = mantVal ['2', '.', '5'] from rfl,
        mantVal_eq, hM, hE,
        show ((-1 : ℤ)) = -(1 : ℤ) from rfl, zpow_neg, zpow_one]
    norm_num
  · have h3 : roundHalfAway (5 / 2 : ℚ) = 3 := by
      unfold roundHalfAway
      rw [if_neg (by norm_num)]
      norm_num
    rw [h3]
    decide

/-- C2 amended: `round_path_data` replaces every numeric token (integer,
decimal, or exponential form, as matched by its number regex) with the
nearest integer to the token's exact value, resolving exact `.5` ties to
the even neighbour (Python's banker's rounding), rendered with no
fractional part. -/
theorem claim_C2_amended :
    (∀ l t rest, matchNumber l = some (t, rest) →
      roundPathData l = intChars (pyRound (tokVal t)) ++ roundPathData rest) ∧
    (∀ (q : ℚ) (z : ℤ), |q - (pyRound q : ℚ)| ≤ |q - (z : ℚ)|) ∧
    (∀ z : ℤ, pyRound ((z : ℚ) + 1 / 2) % 2 = 0) ∧
    (∀ (k : ℤ) (c : Char), c ∈ intChars k → c ≠ '.') := by
  refine ⟨?_, ?_, ?_, ?_⟩
  · intro l t rest h
    cases l with
    | nil => simp [matchNumber] at h
    | cons c r =>
      rw [roundPathData_cons, h, ← tokRound_eq_pyRound]
  · intro q z
    exact int_nearest (pyRound_dist q) z
  · intro z
    have hfl : ⌊(z : ℚ) + 1 / 2⌋ = z := by
      rw [add_comm, Int.floor_add_int]
      norm_num
    unfold pyRound
    rw [hfl]
    rw [if_neg (by push_cast; linarith), if_neg (by push_cast; linarith)]
    split_ifs with hpar
    · exact hpar
    · omega
  · intro k c hc hdot
    subst hdot
    unfold intChars at hc
    have hnat : ∀ n, ('.' : Char) ∈ natChars n → False := by
      intro n hm
      unfold natChars at hm
      split_ifs at hm
      · simp at hm
      · rw [List.mem_reverse, List.mem_map] at hm
        obtain ⟨d, _, hd⟩ := hm
        unfold digChar at hd
        split_ifs at hd <;> simp at hd
    split_ifs at hc
    · rcases List.mem_cons.mp hc with h | h
      · simp at h
      · exact hnat _ h
    · exact hnat _ hc

theorem claim_C2_amended_witness :
    matchNumber ['2', '.', '5', 'x'] = some (['2', '.', '5'], ['x']) ∧
    roundPathData ['2', '.', '5', 'x'] =
      intChars (pyRound (tokVal ['2', '.', '5'])) ++ roundPathData ['x'] ∧
    matchNumber ['1', 'e', '3'] = some (['1', 'e', '3'], []) ∧
    roundPathData ['1', 'e', '3'] =
      intChars (pyRound (tokVal ['1', 'e', '3'])) ++ roundPathData [] ∧
    pyRound (((7 : ℤ) : ℚ) + 1 / 2) % 2 = 0 :=
  ⟨by decide, claim_C2_amended.1 _ _ _ (by decide),
   by decide, claim_C2_amended.1 _ _ _ (by decide),
   claim_C2_amended.2.2.1 7⟩

theorem isDig_digChar (d : ℕ) : isDig (digChar d) = true := by
  unfold digChar
  split_ifs <;> decide

theorem badChar_hexChar (d : ℕ) : badChar (hexChar d) = false := by
  unfold hexChar digChar
  split_ifs <;> decide

theorem isHexUp_hexChar (d : ℕ) : isHexUp (hexChar d) = true := by
  unfold hexChar digChar
  split_ifs <;> decide

theorem hexVal_hexChar (d : ℕ) (h : d < 16) : hexVal (hexChar d) = d := by
  interval_cases d <;> decide

theorem natOfHex_append_last (xs : List Char) (c : Char) :
    natOfHex (xs ++ [c]) = 16 * natOfHex xs + hexVal c := by
  unfold natOfHex
  rw [List.foldl_append]
  rfl

theorem natOfHex_map_rev (L : List ℕ) (hL : ∀ d ∈ L, d < 16) :
    natOfHex ((L.map hexChar).reverse) = Nat.ofDigits 16 L := by
  induction L with
  | nil => rfl
  | cons d L ih =>
    rw [List.map_cons, List.reverse_cons, natOfHex_append_last,
        ih (fun x hx => hL x (List.mem_cons_of_mem d hx)),
        hexVal_hexChar d (hL d (List.mem_cons_self d L)), Nat.ofDigits_cons]
    ring

theorem natOfHex_zeros (k : ℕ) (ds : List Char) :
    natOfHex (List.replicate k '0' ++ ds) = natOfHex ds := by
  induction k with
  | zero => rfl
  | succ k ih =>
    rw [List.replicate_succ, List.cons_append]
    show natOfHex (List.replicate k '0' ++ ds) = natOfHex ds
    exact ih

theorem natOfHex_hexChars (n : ℕ) : natOfHex (hexChars n) = n := by
  unfold hexChars
  split_ifs with h0
  · subst h0; decide
  · rw [digitsF_eq_digits 16 (by norm_num) n n (le_refl n),
        natOfHex_map_rev _ (fun d hd => Nat.digits_lt_base (by norm_num) hd),
        Nat.ofDigits_digits]

theorem hexChars_ne_nil (n : ℕ) : hexChars n ≠ [] := by
  unfold hexChars
  split_ifs with h0
  · simp
  · rw [digitsF_eq_digits 16 (by norm_num) n n (le_refl n)]
    simp [Nat.digits_ne_nil_iff_ne_zero, h0]

theorem mem_hexChars_isHexUp (n : ℕ) (c : Char) (h : c ∈ hexChars n) :
    isHexUp c = true := by
  unfold hexChars at h
  split_ifs at h
  · rcases List.mem_singleton.mp h with rfl
    decide
  · rw [List.mem_reverse, List.mem_map] at h
    obtain ⟨d, _, rfl⟩ := h
    exact isHexUp_hexChar d

theorem badChar_uPlus (cp : ℕ) (c : Char) (h : c ∈ uPlus cp) : badChar c = false := by
  unfold uPlus at h
  rcases List.mem_cons.mp h with rfl | h
  · decide
  rcases List.mem_cons.mp h with rfl | h
  · decide
  rcases List.mem_append.mp h with h | h
  · rcases List.eq_of_mem_replicate h with rfl
    decide
  · unfold hexChars at h
    split_ifs at h
    · rcases List.mem_singleton.mp h with rfl
      decide
    · rw [List.mem_reverse, List.mem_map] at h
      obtain ⟨d, _, rfl⟩ := h
      exact badChar_hexChar d

/-- C9: `safe_name_for_file` behaves identically in both modules; it maps
a character to `U+` followed by its code point in uppercase hexadecimal,
zero-padded to at least four digits, whenever the character is a reserved
filesystem character, has a `C*` Unicode category, or is whitespace, and
to the character itself otherwise; its output never contains a reserved
filesystem character.  The Unicode category test and `isspace` are the
oracles `catC` and `sp`; the result is a pure Lean function of its
arguments. -/
theorem claim_C9 :
    (∀ catC sp ch cp, safeNameSvg catC sp ch cp = safeNameJson catC sp ch (some cp)) ∧
    (∀ catC sp ch, safeNameJson catC sp ch none = safeNameSvg catC sp ch ch.toNat) ∧
    (∀ catC sp ch cp,
      safeNameSvg catC sp ch cp =
        if badChar ch || (catC ch || sp ch) then uPlus cp else [ch]) ∧
    (∀ catC sp ch cp c, c ∈ safeNameSvg catC sp ch cp → badChar c = false) ∧
    (∀ cp, ∃ ds, uPlus cp = 'U' :: '+' :: ds ∧ 4 ≤ ds.length ∧
      (∀ c ∈ ds, isHexUp c = true) ∧ natOfHex ds = cp) := by
  refine ⟨fun catC sp ch cp => rfl, fun catC sp ch => rfl, ?_, ?_, ?_⟩
  · intro catC sp ch cp
    cases hb : badChar ch <;> cases hcs : (catC ch || sp ch) <;>
      simp [safeNameSvg, hb, hcs]
  · intro catC sp ch cp c hmem
    unfold safeNameSvg at hmem
    split_ifs at hmem with h1 h2
    · exact badChar_uPlus cp c hmem
    · exact badChar_uPlus cp c hmem
    · rcases List.mem_singleton.mp hmem with rfl
      simpa using h1
  · intro cp
    refine ⟨List.replicate (4 - (hexChars cp).length) '0' ++ hexChars cp, rfl, ?_, ?_, ?_⟩
    · have h1 : 1 ≤ (hexChars cp).length :=
        List.length_pos.mpr (hexChars_ne_nil cp)
      rw [List.length_append, List.length_replicate]
      omega
    · intro c hc
      rcases List.mem_append.mp hc with h | h
      · rcases List.eq_of_mem_replicate h with rfl
        decide
      · exact mem_hexChars_isHexUp cp c h
    · rw [natOfHex_zeros, natOfHex_hexChars]

/-- C6 counterexample: scenario D of the spec is wrong about the code:
the two canonicalization passes insert spaces around the command letters
and keep the commas, so the raw path does not canonicalize to
`"M11 20 C30 40 50 60 70 80"`. -/
theorem claim_C6_counterexample :
    canonize (("M10.6,20.4C30,40,50,60,70.49,80").toList) ≠
      (("M11 20 C30 40 50 60 70 80").toList) := by
  decide

/-- C6 amended: the raw path render `"M10.6,20.4C30,40,50,60,70.49,80"`
canonicalizes (round, then space-normalize) to
`"M 11,20 C 30,40,50,60,70,80"`: the numbers are rounded, a space is
inserted between every digit and adjacent command letter, and the commas
are preserved. -/
theorem claim_C6_amended :
    canonize (("M10.6,20.4C30,40,50,60,70.49,80").toList) =
      (("M 11,20 C 30,40,50,60,70,80").toList) := by
  decide

theorem nonTokF_fuel_irrelevant :
    ∀ fuel l, l.length ≤ fuel → nonTokF fuel l = nonTokChars l := by
  intro fuel
  induction fuel using Nat.strong_induction_on with
  | _ fuel ih =>
    intro l hl
    cases l with
    | nil => cases fuel <;> rfl
    | cons c r =>
      cases fuel with
      | zero => simp at hl
      | succ fuel =>
        show nonTokF (fuel + 1) (c :: r) = nonTokF (r.length + 1) (c :: r)
        simp only [nonTokF]
        simp only [List.length_cons] at hl
        cases h : matchNumber (c :: r) with
        | some p =>
          have hlt : p.2.length < r.length + 1 := by
            have := matchNumber_rest_lt (h.trans rfl)
            simpa using this
          dsimp only
          rw [ih fuel (Nat.lt_succ_self fuel) p.2 (by omega),
              ih r.length (by omega) p.2 (by omega)]
        | none =>
          dsimp only
          rw [ih fuel (Nat.lt_succ_self fuel) r (by omega),
              ih r.length (by omega) r (le_refl _)]

/-- The defining recursion of the leftover-character scan. -/
theorem nonTokChars_cons (c : Char) (r : List Char) :
    nonTokChars (c :: r) =
      match matchNumber (c :: r) with
      | some p => nonTokChars p.2
      | none => c :: nonTokChars r := by
  show nonTokF (r.length + 1) (c :: r) = _
  simp only [nonTokF]
  cases h : matchNumber (c :: r) with
  | some p =>
    have hlt : p.2.length < r.length + 1 := by
      have := matchNumber_rest_lt (h.trans rfl)
      simpa using this
    dsimp only
    rw [nonTokF_fuel_irrelevant r.length p.2 (by omega)]
  | none =>
    dsimp only
    rw [nonTokF_fuel_irrelevant r.length r (le_refl _)]

/-- The leftover characters appear, in order, in the rounded output. -/
theorem nonTok_sublist (l : List Char) :
    (nonTokChars l).Sublist (roundPathData l) := by
  have H : ∀ (n : ℕ) (l : List Char), l.length = n →
      (nonTokChars l).Sublist (roundPathData l) := by
    intro n
    induction n using Nat.strong_induction_on with
    | _ n ih =>
      intro l hn
      cases l with
      | nil => exact List.Sublist.refl _
      | cons c r =>
        rw [nonTokChars_cons, roundPathData_cons]
        cases hm : matchNumber (c :: r) with
        | some p =>
          dsimp only
          have hlt : p.2.length < n := by
            subst hn
            exact matchNumber_rest_lt (hm.trans rfl)
          exact (ih p.2.length hlt p.2 rfl).trans (List.sublist_append_right _ _)
        | none =>
          dsimp only
          have hlt : r.length < n := by
            subst hn
            simp
          exact List.Sublist.cons₂ c (ih r.length hlt r rfl)
  exact H l.length l rfl

theorem sub1_superlist (l : List Char) : l.Sublist (sub1 l) := by
  induction l with
  | nil => exact List.Sublist.refl _
  | cons a tl ih =>
    cases tl with
    | nil => exact List.Sublist.refl _
    | cons b r =>
      show (a :: b :: r).Sublist (sub1 (a :: b :: r))
      unfold sub1
      split_ifs with h
      · exact List.Sublist.cons₂ a (List.Sublist.cons ' ' ih)
      · exact List.Sublist.cons₂ a ih

theorem sub2_superlist (l : List Char) : l.Sublist (sub2 l) := by
  induction l with
  | nil => exact List.Sublist.refl _
  | cons a tl ih =>
    cases tl with
    | nil => exact List.Sublist.refl _
    | cons b r =>
      show (a :: b :: r).Sublist (sub2 (a :: b :: r))
      unfold sub2
      split_ifs with h
      · exact List.Sublist.cons₂ a (List.Sublist.cons ' ' ih)
      · exact List.Sublist.cons₂ a ih

theorem filter_collWsGo (flag : Bool) (l : List Char) :
    (collWsGo flag l).filter (fun c => !isPySpace c) =
      l.filter (fun c => !isPySpace c) := by
  induction l generalizing flag with
  | nil => rfl
  | cons c r ih =>
    unfold collWsGo
    by_cases hc : isPySpace c = true
    · rw [if_pos hc]
      have hr : (List.filter (fun c => !isPySpace c) (c :: r)) =
          List.filter (fun c => !isPySpace c) r := by
        rw [List.filter_cons_of_neg]
        simp [hc]
      cases flag with
      | true =>
        rw [if_pos rfl, ih, hr]
      | false =>
        rw [if_neg (by simp), List.filter_cons_of_neg (by decide), ih, hr]
    · rw [if_neg hc, List.filter_cons_of_pos (by simp [hc]), ih,
          List.filter_cons_of_pos (by simp [hc])]

theorem filter_collapseWs (l : List Char) :
    (collapseWs l).filter (fun c => !isPySpace c) =
      l.filter (fun c => !isPySpace c) :=
  filter_collWsGo false l

theorem filter_dropWhileSp (l : List Char) :
    (l.dropWhile isPySpace).filter (fun c => !isPySpace c) =
      l.filter (fun c => !isPySpace c) := by
  induction l with
  | nil => rfl
  | cons c r ih =>
    by_cases hc : isPySpace c = true
    · rw [List.dropWhile_cons_of_pos hc, ih, List.filter_cons_of_neg (by simp [hc])]
    · rw [List.dropWhile_cons_of_neg hc]

theorem filter_pyStrip (l : List Char) :
    (pyStrip l).filter (fun c => !isPySpace c) =
      l.filter (fun c => !isPySpace c) := by
  unfold pyStrip
  rw [List.filter_reverse, filter_dropWhileSp, List.filter_reverse,
      List.reverse_reverse, filter_dropWhileSp]

theorem sublist_addSpace {x l : List Char}
    (hx : ∀ c ∈ x, isPySpace c = false) (h : x.Sublist l) :
    x.Sublist (addSpace l) := by
  have hxf : x.filter (fun c => !isPySpace c) = x := by
    rw [List.filter_eq_self]
    intro a ha
    simp [hx a ha]
  have h1 : x.Sublist (sub2 (sub1 l)) :=
    (h.trans (sub1_superlist l)).trans (sub2_superlist (sub1 l))
  have h2 : x.Sublist (collapseWs (sub2 (sub1 l))) := by
    have hf := List.Sublist.filter (fun c => !isPySpace c) h1
    rw [hxf] at hf
    have hcw : x.Sublist ((collapseWs (sub2 (sub1 l))).filter (fun c => !isPySpace c)) := by
      rw [filter_collapseWs]
      exact hf
    exact hcw.trans (List.filter_sublist _)
  have h3 := List.Sublist.filter (fun c => !isPySpace c) h2
  rw [hxf] at h3
  have hps : x.Sublist ((pyStrip (collapseWs (sub2 (sub1 l)))).filter (fun c => !isPySpace c)) := by
    rw [filter_pyStrip]
    exact h3
  exact hps.trans (List.filter_sublist _)

/-- Characters that can occur inside a matched numeric token or in its
integer replacement. -/
def tokAlpha (c : Char) : Bool :=
  isDig c || c == '-' || c == '.' || c == 'e' || c == '+'

theorem mem_takeWhile_isDig {c : Char} {l : List Char}
    (h : c ∈ l.takeWhile isDig) : isDig c = true := by
  induction l with
  | nil => simp [List.takeWhile] at h
  | cons a r ih =>
    rw [List.takeWhile_cons] at h
    by_cases ha : isDig a = true
    · rw [if_pos ha] at h
      rcases List.mem_cons.mp h with rfl | h
      · exact ha
      · exact ih h
    · rw [if_neg ha] at h
      simp at h

theorem matchExp_tokAlpha {l t r : List Char} (h : matchExp l = some (t, r)) :
    ∀ c ∈ t, tokAlpha c = true := by
  unfold matchExp at h
  match l with
  | [] => simp at h
  | c0 :: l' =>
    simp only at h
    split_ifs at h with hc
    · subst hc
      match l' with
      | [] => simp at h
      | d :: r2 =>
        simp only at h
        split_ifs at h with hd hdig hdig <;>
          simp only [Option.some.injEq, Prod.mk.injEq] at h <;>
          obtain ⟨ht, _⟩ := h <;> subst ht <;> intro c hcmem
        · rcases List.mem_cons.mp hcmem with rfl | hcmem
          · decide
          rcases List.mem_cons.mp hcmem with rfl | hcmem
          · rcases hd with rfl | rfl <;> decide
          · simp [tokAlpha, mem_takeWhile_isDig hcmem]
        · rcases List.mem_cons.mp hcmem with rfl | hcmem
          · decide
          · simp [tokAlpha, mem_takeWhile_isDig hcmem]

theorem matchAfterInt_tokAlpha (l : List Char) :
    ∀ c ∈ (matchAfterInt l).1, tokAlpha c = true := by
  unfold matchAfterInt
  match l with
  | [] => simp
  | c0 :: r =>
    simp only
    split_ifs with hc
    · cases hme : matchExp (r.dropWhile isDig) with
      | none =>
        dsimp only
        intro c hcmem
        rcases List.mem_cons.mp hcmem with rfl | hcmem
        · subst hc; decide
        · simp [tokAlpha, mem_takeWhile_isDig hcmem]
      | some p =>
        dsimp only
        intro c hcmem
        rcases List.mem_cons.mp hcmem with rfl | hcmem
        · subst hc; decide
        rcases List.mem_append.mp hcmem with hcmem | hcmem
        · simp [tokAlpha, mem_takeWhile_isDig hcmem]
        · exact matchExp_tokAlpha (by rw [hme]) c hcmem
    · cases hme : matchExp (c0 :: r) with
      | none => simp
      | some p =>
        dsimp only
        intro c hcmem
        exact matchExp_tokAlpha (by rw [hme]) c hcmem

theorem matchNumber_tokAlpha {l t r : List Char} (h : matchNumber l = some (t, r)) :
    ∀ c ∈ t, tokAlpha c = true := by
  unfold matchNumber at h
  match l with
  | [] => simp at h
  | c0 :: l' =>
    simp only at h
    split_ifs at h with hc hd hdig <;>
      simp only [Option.some.injEq, Prod.mk.injEq] at h <;>
      obtain ⟨ht, _⟩ := h <;> subst ht <;> intro c hcmem
    · rcases List.mem_cons.mp hcmem with rfl | hcmem
      · subst hc; decide
      rcases List.mem_append.mp hcmem with hcmem | hcmem
      · simp [tokAlpha, mem_takeWhile_isDig hcmem]
      · exact matchAfterInt_tokAlpha _ c hcmem
    · rcases List.mem_append.mp hcmem with hcmem | hcmem
      · simp [tokAlpha, mem_takeWhile_isDig hcmem]
      · exact matchAfterInt_tokAlpha _ c hcmem

theorem tokAlpha_intChars (k : ℤ) (c : Char) (h : c ∈ intChars k) :
    tokAlpha c = true := by
  have hnat : ∀ n c, c ∈ natChars n → tokAlpha c = true := by
    intro n c hm
    unfold natChars at hm
    split_ifs at hm
    · rcases List.mem_singleton.mp hm with rfl
      decide
    · rw [List.mem_reverse, List.mem_map] at hm
      obtain ⟨d, _, rfl⟩ := hm
      simp [tokAlpha, isDig_digChar]
  unfold intChars at h
  split_ifs at h
  · rcases List.mem_cons.mp h with rfl | h
    · decide
    · exact hnat _ _ h
  · exact hnat _ _ h

theorem count_roundPathData (l : List Char) (c : Char) (hc : tokAlpha c = false) :
    (roundPathData l).count c = l.count c := by
  have H : ∀ (n : ℕ) (l : List Char), l.length = n →
      (roundPathData l).count c = l.count c := by
    intro n
    induction n using Nat.strong_induction_on with
    | _ n ih =>
      intro l hn
      cases l with
      | nil => rfl
      | cons a r =>
        rw [roundPathData_cons]
        cases hm : matchNumber (a :: r) with
        | some p =>
          dsimp only
          obtain ⟨happ, _⟩ := matchNumber_spec (hm.trans rfl)
          have hlt : p.2.length < n := by
            subst hn
            exact matchNumber_rest_lt (hm.trans rfl)
          have hcount1 : (intChars (tokRound p.1)).count c = 0 := by
            rw [List.count_eq_zero]
            intro hmem
            rw [tokAlpha_intChars _ _ hmem] at hc
            exact Bool.true_eq_false.mp hc
          have hcount2 : p.1.count c = 0 := by
            rw [List.count_eq_zero]
            intro hmem
            rw [matchNumber_tokAlpha (hm.trans rfl) c hmem] at hc
            exact Bool.true_eq_false.mp hc
          rw [List.count_append, hcount1, ih p.2.length hlt p.2 rfl,
              ← happ, List.count_append, hcount2]
        | none =>
          dsimp only
          have hlt : r.length < n := by
            subst hn
            simp
          rw [List.count_cons, List.count_cons, ih r.length hlt r rfl]
  exact H l.length l rfl

theorem count_sub1 (l : List Char) (c : Char) (hc : c ≠ ' ') :
    (sub1 l).count c = l.count c := by
  induction l with
  | nil => rfl
  | cons a tl ih =>
    cases tl with
    | nil => rfl
    | cons b r =>
      show (sub1 (a :: b :: r)).count c = _
      unfold sub1
      split_ifs with h
      · have hsp : (' ' == c) = false := by
          simp [Ne.symm hc]
        simp [List.count_cons, ih, hsp]
      · simp only [List.count_cons, ih]

theorem count_sub2 (l : List Char) (c : Char) (hc : c ≠ ' ') :
    (sub2 l).count c = l.count c := by
  induction l with
  | nil => rfl
  | cons a tl ih =>
    cases tl with
    | nil => rfl
    | cons b r =>
      show (sub2 (a :: b :: r)).count c = _
      unfold sub2
      split_ifs with h
      · have hsp : (' ' == c) = false := by
          simp [Ne.symm hc]
        simp [List.count_cons, ih, hsp]
      · simp only [List.count_cons, ih]

theorem count_of_filter_eq {l₁ l₂ : List Char} {c : Char}
    (hsp : isPySpace c = false)
    (h : l₁.filter (fun x => !isPySpace x) = l₂.filter (fun x => !isPySpace x)) :
    l₁.count c = l₂.count c := by
  have hp : (fun x => !isPySpace x) c = true := by simp [hsp]
  rw [← @List.count_filter Char _ _ (fun x => !isPySpace x) c l₁ hp, h,
      @List.count_filter Char _ _ (fun x => !isPySpace x) c l₂ hp]

/-- C10: the canonicalization pipeline rewrites only numeric tokens and
whitespace: the characters of the input that belong to no numeric token
and are not whitespace appear unchanged and in their original relative
order in the output; in particular the number of commas is preserved
exactly. -/
theorem claim_C10 (s : List Char) :
    ((nonTokChars s).filter (fun c => !isPySpace c)).Sublist (canonize s) ∧
    (canonize s).count ',' = s.count ',' := by
  constructor
  · apply sublist_addSpace
    · intro c hcmem
      rcases List.mem_filter.mp hcmem with ⟨_, hns⟩
      simpa using hns
    · exact (List.filter_sublist (nonTokChars s)).trans (nonTok_sublist s)
  · unfold canonize addSpace
    have h1 : (pyStrip (collapseWs (sub2 (sub1 (roundPathData s))))).count ',' =
        (collapseWs (sub2 (sub1 (roundPathData s)))).count ',' :=
      count_of_filter_eq (by decide) (filter_pyStrip _)
    have h2 : (collapseWs (sub2 (sub1 (roundPathData s)))).count ',' =
        (sub2 (sub1 (roundPathData s))).count ',' :=
      count_of_filter_eq (by decide) (filter_collWsGo false _)
    rw [h1, h2, count_sub2 _ _ (by decide), count_sub1 _ _ (by decide),
        count_roundPathData _ _ (by decide)]

theorem pairsOK_iff_chain (p : Char → Char → Bool) (l : List Char) :
    pairsOK p l = true ↔ List.Chain' (fun a b => p a b = true) l := by
  induction l with
  | nil => simp [pairsOK]
  | cons a tl ih =>
    cases tl with
    | nil => simp [pairsOK]
    | cons b r =>
      rw [show pairsOK p (a :: b :: r) = (p a b && pairsOK p (b :: r)) from rfl,
          List.chain'_cons, Bool.and_eq_true, ih]

theorem S_space_left (b : Char) : noCmdDigitPair ' ' b = true := by
  unfold noCmdDigitPair
  simp [show isCmd ' ' = false from by decide, show isDig ' ' = false from by decide]

theorem S_space_right (a : Char) : noCmdDigitPair a ' ' = true := by
  unfold noCmdDigitPair
  simp [show isCmd ' ' = false from by decide, show isDig ' ' = false from by decide]

theorem S_symm {a b : Char} (h : noCmdDigitPair a b = true) : noCmdDigitPair b a = true := by
  unfold noCmdDigitPair at h ⊢
  simp only [Bool.and_eq_true, Bool.not_eq_true', Bool.and_eq_false_iff] at h ⊢
  tauto

theorem sub1_head (x : Char) (xs : List Char) : (sub1 (x :: xs)).head? = some x := by
  cases xs with
  | nil => rfl
  | cons b r =>
    show (sub1 (x :: b :: r)).head? = some x
    unfold sub1
    split_ifs <;> rfl

theorem sub2_head (x : Char) (xs : List Char) : (sub2 (x :: xs)).head? = some x := by
  cases xs with
  | nil => rfl
  | cons b r =>
    show (sub2 (x :: b :: r)).head? = some x
    unfold sub2
    split_ifs <;> rfl

theorem sub1_chain (l : List Char) :
    List.Chain' (fun a b => (isDig a && isCmd b) = false) (sub1 l) := by
  induction l with
  | nil => simp [sub1]
  | cons a tl ih =>
    cases tl with
    | nil => simp [sub1]
    | cons b r =>
      show List.Chain' _ (sub1 (a :: b :: r))
      unfold sub1
      split_ifs with h
      · rw [List.chain'_cons, List.chain'_cons']
        refine ⟨by simp [show isCmd ' ' = false from by decide], ?_, ih⟩
        intro y hy
        rw [sub1_head b r] at hy
        rcases Option.mem_some_iff.mp hy with rfl
        simp [show isDig ' ' = false from by decide]
      · rw [List.chain'_cons']
        refine ⟨?_, ih⟩
        intro y hy
        rw [sub1_head b r] at hy
        rcases Option.mem_some_iff.mp hy with rfl
        simpa using h

theorem sub2_chain (l : List Char)
    (hA : List.Chain' (fun a b => (isDig a && isCmd b) = false) l) :
    List.Chain' (fun a b => noCmdDigitPair a b = true) (sub2 l) := by
  induction l with
  | nil => simp [sub2]
  | cons a tl ih =>
    cases tl with
    | nil => simp [sub2]
    | cons b r =>
      obtain ⟨hab, htl⟩ := List.chain'_cons.mp hA
      show List.Chain' _ (sub2 (a :: b :: r))
      unfold sub2
      split_ifs with h
      · rw [List.chain'_cons, List.chain'_cons']
        refine ⟨S_space_right a, ?_, ih htl⟩
        intro y hy
        rw [sub2_head b r] at hy
        rcases Option.mem_some_iff.mp hy with rfl
        exact S_space_left b
      · rw [List.chain'_cons']
        refine ⟨?_, ih htl⟩
        intro y hy
        rw [sub2_head b r] at hy
        rcases Option.mem_some_iff.mp hy with rfl
        have h2 : (isCmd a && isDig b) = false := by simpa using h
        unfold noCmdDigitPair
        rw [hab, h2]
        rfl

theorem collWs_chain (l : List Char)
    (h : List.Chain' (fun a b => noCmdDigitPair a b = true) l) :
    (∀ flag, List.Chain' (fun a b => noCmdDigitPair a b = true) (collWsGo flag l)) ∧
    (∀ x, (collWsGo false l).head? = some x → x = ' ' ∨ l.head? = some x) := by
  induction l with
  | nil =>
    refine ⟨fun flag => by cases flag <;> simp [collWsGo], ?_⟩
    intro x hx
    simp [collWsGo] at hx
  | cons c r ih =>
    have htl : List.Chain' (fun a b => noCmdDigitPair a b = true) r := h.tail
    obtain ⟨ih1, ih2⟩ := ih htl
    by_cases hc : isPySpace c = true
    · refine ⟨?_, ?_⟩
      · intro flag
        cases flag with
        | false =>
          show List.Chain' _ (collWsGo false (c :: r))
          unfold collWsGo
          rw [if_pos hc, if_neg (by simp)]
          rw [List.chain'_cons']
          exact ⟨fun y _ => S_space_left y, ih1 true⟩
        | true =>
          show List.Chain' _ (collWsGo true (c :: r))
          unfold collWsGo
          rw [if_pos hc, if_pos rfl]
          exact ih1 true
      · intro x hx
        unfold collWsGo at hx
        rw [if_pos hc, if_neg (by simp)] at hx
        simp at hx
        exact Or.inl hx.symm
    · refine ⟨?_, ?_⟩
      · intro flag
        show List.Chain' _ (collWsGo flag (c :: r))
        unfold collWsGo
        rw [if_neg hc]
        rw [List.chain'_cons']
        refine ⟨?_, ih1 false⟩
        intro y hy
        rcases ih2 y hy with rfl | hy2
        · exact S_space_right c
        · exact (List.chain'_cons'.mp h).1 y hy2
      · intro x hx
        unfold collWsGo at hx
        rw [if_neg hc] at hx
        simp at hx
        exact Or.inr (by simp [hx])

theorem chain_dropWhile {R : Char → Char → Prop} (p : Char → Bool) (l : List Char)
    (h : List.Chain' R l) : List.Chain' R (l.dropWhile p) := by
  induction l with
  | nil => simpa using h
  | cons c r ih =>
    rw [List.dropWhile_cons]
    split_ifs
    · exact ih h.tail
    · exact h

theorem chain_pyStrip (l : List Char)
    (h : List.Chain' (fun a b => noCmdDigitPair a b = true) l) :
    List.Chain' (fun a b => noCmdDigitPair a b = true) (pyStrip l) := by
  unfold pyStrip
  have h1 := chain_dropWhile isPySpace l h
  have h1r : List.Chain' (fun a b => noCmdDigitPair a b = true)
      ((l.dropWhile isPySpace).reverse) := by
    rw [List.chain'_reverse]
    exact h1.imp fun a b hab => S_symm hab
  have h2 := chain_dropWhile isPySpace _ h1r
  rw [List.chain'_reverse]
  exact h2.imp fun a b hab => S_symm hab

theorem addSpace_chain (l : List Char) :
    List.Chain' (fun a b => noCmdDigitPair a b = true) (addSpace l) := by
  unfold addSpace collapseWs
  exact chain_pyStrip _ ((collWs_chain _ (sub2_chain _ (sub1_chain l))).1 false)

/-- C7 counterexample: the close-then-move sequence `ZM` stays glued —
`add_space_around_commands` only separates letters from digits — so in
the canonicalized `"ZM 1"` the command letter `M` is directly preceded by
the letter `Z`, not by a space, a digit, or the string start. -/
theorem claim_C7_counterexample :
    addSpace (roundPathData (("ZM1").toList)) = (("ZM 1").toList) ∧
    pairsOK c7Pair (("ZM 1").toList) = false := by
  decide

/-- C7 amended: in every output of `add_space_around_commands` (in
particular applied after `round_path_data`), no command letter from the
set `MLHVCSQTAZ` (either case) is immediately preceded or followed by a
digit; adjacent non-digit characters (such as another letter or a minus
sign) are possible. -/
theorem claim_C7_amended (s : List Char) :
    pairsOK noCmdDigitPair (addSpace (roundPathData s)) = true := by
  rw [pairsOK_iff_chain]
  exact addSpace_chain _

theorem natChars_ne_nil (n : ℕ) : natChars n ≠ [] := by
  unfold natChars
  split_ifs with h0
  · simp
  · rw [digitsF_eq_digits 10 (by norm_num) n n (le_refl n)]
    simp [Nat.digits_ne_nil_iff_ne_zero, h0]

theorem mem_natChars {n : ℕ} {c : Char} (h : c ∈ natChars n) :
    ∃ d, c = digChar d := by
  unfold natChars at h
  split_ifs at h
  · rcases List.mem_singleton.mp h with rfl
    exact ⟨0, rfl⟩
  · rw [List.mem_reverse, List.mem_map] at h
    obtain ⟨d, _, rfl⟩ := h
    exact ⟨d, rfl⟩

theorem isCmd_digChar (d : ℕ) : isCmd (digChar d) = false := by
  unfold digChar
  split_ifs <;> decide

theorem isPySpace_digChar (d : ℕ) : isPySpace (digChar d) = false := by
  unfold digChar
  split_ifs <;> decide

theorem isCmd_cases {c : Char} (h : isCmd c = true) :
    c = 'M' ∨ c = 'L' ∨ c = 'H' ∨ c = 'V' ∨ c = 'C' ∨
    c = 'S' ∨ c = 'Q' ∨ c = 'T' ∨ c = 'A' ∨ c = 'Z' ∨
    c = 'm' ∨ c = 'l' ∨ c = 'h' ∨ c = 'v' ∨ c = 'c' ∨
    c = 's' ∨ c = 'q' ∨ c = 't' ∨ c = 'a' ∨ c = 'z' := by
  have h2 := h
  simp only [isCmd, Bool.or_eq_true, beq_iff_eq] at h2
  tauto

theorem isCmd_not_space {c : Char} (h : isCmd c = true) : isPySpace c = false := by
  rcases isCmd_cases h with rfl|rfl|rfl|rfl|rfl|rfl|rfl|rfl|rfl|rfl|rfl|rfl|rfl|rfl|rfl|rfl|rfl|rfl|rfl|rfl <;>
    decide

theorem isCmd_not_dig {c : Char} (h : isCmd c = true) : isDig c = false := by
  rcases isCmd_cases h with rfl|rfl|rfl|rfl|rfl|rfl|rfl|rfl|rfl|rfl|rfl|rfl|rfl|rfl|rfl|rfl|rfl|rfl|rfl|rfl <;>
    decide

theorem isCmd_ne_minus {c : Char} (h : isCmd c = true) : c ≠ '-' := by
  rcases isCmd_cases h with rfl|rfl|rfl|rfl|rfl|rfl|rfl|rfl|rfl|rfl|rfl|rfl|rfl|rfl|rfl|rfl|rfl|rfl|rfl|rfl <;>
    decide

theorem isDig_digChar_all {c : Char} (h : ∃ d, c = digChar d) : isDig c = true := by
  obtain ⟨d, rfl⟩ := h
  exact isDig_digChar d

theorem isDig_ne_minus {c : Char} (h : isDig c = true) : c ≠ '-' := by
  intro hc
  subst hc
  simp [isDig] at h

theorem isDig_not_space {c : Char} (h : isDig c = true) : isPySpace c = false := by
  unfold isDig at h
  unfold isPySpace
  have h1 : 48 ≤ c.toNat ∧ c.toNat ≤ 57 := by
    unfold Char.isDigit at h
    simp only [Bool.and_eq_true, decide_eq_true_eq] at h
    exact ⟨h.1, h.2⟩
  simp only [Bool.or_eq_false_iff, Bool.and_eq_false_iff]
  refine ⟨⟨⟨⟨⟨⟨⟨⟨⟨⟨?_, ?_⟩, ?_⟩, ?_⟩, ?_⟩, ?_⟩, ?_⟩, ?_⟩, ?_⟩, ?_⟩, ?_⟩ <;>
    simp <;> omega

theorem takeWhile_all_append (p : Char → Bool) (ds rest : List Char)
    (h : ∀ c ∈ ds, p c = true) :
    (ds ++ rest).takeWhile p = ds ++ rest.takeWhile p ∧
    (ds ++ rest).dropWhile p = rest.dropWhile p := by
  induction ds with
  | nil => simp
  | cons c ds ih =>
    have hc : p c = true := h c (List.mem_cons_self c ds)
    obtain ⟨ih1, ih2⟩ := ih fun x hx => h x (List.mem_cons_of_mem c hx)
    constructor
    · rw [List.cons_append, List.takeWhile_cons_of_pos hc, ih1]
      simp
    · rw [List.cons_append, List.dropWhile_cons_of_pos hc, ih2]

theorem sepRest_takeDrop (rest : List Char)
    (h : rest = [] ∨ ∃ r', rest = ' ' :: r') :
    rest.takeWhile isDig = [] ∧ rest.dropWhile isDig = rest := by
  rcases h with rfl | ⟨r', rfl⟩
  · simp
  · constructor
    · rw [List.takeWhile_cons_of_neg (by decide)]
    · rw [List.dropWhile_cons_of_neg (by decide)]

theorem matchExp_sepRest (rest : List Char)
    (h : rest = [] ∨ ∃ r', rest = ' ' :: r') : matchExp rest = none := by
  rcases h with rfl | ⟨r', rfl⟩
  · rfl
  · unfold matchExp
    dsimp only
    rw [if_neg (by decide : ¬(' ' = 'e'))]

theorem matchAfterInt_sepRest (rest : List Char)
    (h : rest = [] ∨ ∃ r', rest = ' ' :: r') : matchAfterInt rest = ([], rest) := by
  rcases h with rfl | ⟨r', rfl⟩
  · rfl
  · unfold matchAfterInt
    dsimp only
    rw [if_neg (by decide : ¬(' ' = '.')),
        show matchExp (' ' :: r') = none from matchExp_sepRest _ (Or.inr ⟨r', rfl⟩)]

theorem matchNumber_not_num (c : Char) (r : List Char)
    (hminus : c ≠ '-') (hdig : isDig c = false) : matchNumber (c :: r) = none := by
  unfold matchNumber
  dsimp only
  rw [if_neg hminus, if_neg (by simp [hdig])]

theorem matchNumber_digits {ds rest : List Char} (hne : ds ≠ [])
    (hall : ∀ c ∈ ds, isDig c = true)
    (hsep : rest = [] ∨ ∃ r', rest = ' ' :: r') :
    matchNumber (ds ++ rest) = some (ds, rest) := by
  obtain ⟨tw, dw⟩ := takeWhile_all_append isDig ds rest hall
  obtain ⟨rtw, rdw⟩ := sepRest_takeDrop rest hsep
  obtain ⟨d, ds', rfl⟩ : ∃ d ds', ds = d :: ds' := by
    cases ds with
    | nil => exact absurd rfl hne
    | cons d ds' => exact ⟨d, ds', rfl⟩
  have hd : isDig d = true := hall d (List.mem_cons_self _ _)
  show matchNumber (d :: (ds' ++ rest)) = _
  unfold matchNumber
  dsimp only
  rw [if_neg (isDig_ne_minus hd), if_pos hd]
  rw [show (d :: (ds' ++ rest)).takeWhile isDig = (d :: ds') ++ rest.takeWhile isDig from tw,
      show (d :: (ds' ++ rest)).dropWhile isDig = rest.dropWhile isDig from dw,
      rtw, rdw, matchAfterInt_sepRest rest hsep]
  simp

theorem matchNumber_minus_digits {ds rest : List Char} (hne : ds ≠ [])
    (hall : ∀ c ∈ ds, isDig c = true)
    (hsep : rest = [] ∨ ∃ r', rest = ' ' :: r') :
    matchNumber ('-' :: (ds ++ rest)) = some ('-' :: ds, rest) := by
  obtain ⟨tw, dw⟩ := takeWhile_all_append isDig ds rest hall
  obtain ⟨rtw, rdw⟩ := sepRest_takeDrop rest hsep
  have hhd : headDig (ds ++ rest) = true := by
    cases ds with
    | nil => exact absurd rfl hne
    | cons d ds' => exact hall d (List.mem_cons_self _ _)
  unfold matchNumber
  dsimp only
  rw [if_pos rfl, if_pos hhd, tw, dw, rtw, rdw, matchAfterInt_sepRest rest hsep]
  simp

theorem matchNumber_intChars (k : ℤ) (rest : List Char)
    (hsep : rest = [] ∨ ∃ r', rest = ' ' :: r') :
    matchNumber (intChars k ++ rest) = some (intChars k, rest) := by
  have hall : ∀ n, ∀ c ∈ natChars n, isDig c = true :=
    fun n c hc => isDig_digChar_all (mem_natChars hc)
  unfold intChars
  split_ifs with hk
  · rw [List.cons_append]
    exact matchNumber_minus_digits (natChars_ne_nil _) (hall _) hsep
  · exact matchNumber_digits (natChars_ne_nil _) (hall _) hsep

theorem roundPathData_match {l t rest : List Char}
    (h : matchNumber l = some (t, rest)) :
    roundPathData l = intChars (tokRound t) ++ roundPathData rest := by
  cases l with
  | nil => simp [matchNumber] at h
  | cons c r => rw [roundPathData_cons, h]

theorem roundPathData_token {t rest : List Char} (ht : tokOKint t = true)
    (hsep : rest = [] ∨ ∃ r', rest = ' ' :: r') :
    roundPathData (t ++ rest) = t ++ roundPathData rest := by
  have heq : t = intChars (tokRound t) := by
    simpa [tokOKint] using ht
  have hm : matchNumber (t ++ rest) = some (t, rest) := by
    conv_lhs => rw [heq]
    rw [matchNumber_intChars _ _ hsep, ← heq]
  rw [roundPathData_match hm, ← heq]

theorem roundPathData_cmd {c : Char} (hc : isCmd c = true) (rest : List Char) :
    roundPathData (c :: rest) = c :: roundPathData rest := by
  rw [roundPathData_cons, matchNumber_not_num c rest (isCmd_ne_minus hc) (isCmd_not_dig hc)]

theorem roundPathData_space (r : List Char) :
    roundPathData (' ' :: r) = ' ' :: roundPathData r := by
  rw [roundPathData_cons, matchNumber_not_num ' ' r (by decide) (by decide)]

theorem tokOK_cases {t : List Char} (ht : tokOK t = true) :
    (∃ c, t = [c] ∧ isCmd c = true) ∨ t = intChars (tokRound t) := by
  have hor : tokOKcmd t = true ∨ tokOKint t = true := by
    simpa [tokOK] using ht
  rcases hor with hcmd | hint
  · left
    unfold tokOKcmd at hcmd
    match t, hcmd with
    | [c], h => exact ⟨c, rfl, h⟩
  · right
    simpa [tokOKint] using hint

theorem TokList_round_fix {l : List Char} (h : TokList l) : roundPathData l = l := by
  induction h with
  | single t ht =>
    rcases tokOK_cases ht with ⟨c, rfl, hc⟩ | hint
    · rw [roundPathData_cmd hc]
      rfl
    · have h2 : roundPathData (t ++ []) = t ++ roundPathData [] :=
        roundPathData_token (by simp [tokOKint, ← hint]) (Or.inl rfl)
      simpa [roundPathData_nil] using h2
  | cons t r ht hr ih =>
    rcases tokOK_cases ht with ⟨c, rfl, hc⟩ | hint
    · rw [List.singleton_append, roundPathData_cmd hc, roundPathData_space, ih]
    · rw [roundPathData_token (by simp [tokOKint, ← hint]) (Or.inr ⟨r, rfl⟩),
          roundPathData_space, ih]

theorem mem_intChars {k : ℤ} {c : Char} (h : c ∈ intChars k) :
    c = '-' ∨ ∃ d, c = digChar d := by
  unfold intChars at h
  split_ifs at h
  · rcases List.mem_cons.mp h with rfl | h
    · exact Or.inl rfl
    · exact Or.inr (mem_natChars h)
  · exact Or.inr (mem_natChars h)

theorem tok_ne_nil {t : List Char} (ht : tokOK t = true) : t ≠ [] := by
  rcases tokOK_cases ht with ⟨c, rfl, _⟩ | hint
  · simp
  · rw [hint]
    unfold intChars
    split_ifs
    · simp
    · exact natChars_ne_nil _

theorem tok_chars {t : List Char} (ht : tokOK t = true) :
    ∀ c ∈ t, isCmd c = true ∨ c = '-' ∨ ∃ d, c = digChar d := by
  rcases tokOK_cases ht with ⟨c0, rfl, hc0⟩ | hint
  · intro c hc
    rcases List.mem_singleton.mp hc with rfl
    exact Or.inl hc0
  · intro c hc
    rw [hint] at hc
    exact Or.inr (mem_intChars hc)

theorem tokChar_not_space {c : Char}
    (h : isCmd c = true ∨ c = '-' ∨ ∃ d, c = digChar d) :
    isPySpace c = false := by
  rcases h with h | rfl | ⟨d, rfl⟩
  · exact isCmd_not_space h
  · decide
  · exact isPySpace_digChar d

theorem intTokChar_pair {a b : Char}
    (ha : a = '-' ∨ ∃ d, a = digChar d) (hb : b = '-' ∨ ∃ d, b = digChar d) :
    canonPair a b := by
  have hca : isCmd a = false := by
    rcases ha with rfl | ⟨d, rfl⟩
    · decide
    · exact isCmd_digChar d
  have hcb : isCmd b = false := by
    rcases hb with rfl | ⟨d, rfl⟩
    · decide
    · exact isCmd_digChar d
  have hsa : isPySpace a = false := tokChar_not_space (Or.inr ha)
  exact ⟨by simp [hcb], by simp [hca], by simp [hsa]⟩

theorem chain'_of_mem {R : Char → Char → Prop} :
    ∀ l : List Char, (∀ a b, a ∈ l → b ∈ l → R a b) → List.Chain' R l := by
  intro l
  induction l with
  | nil => intro _; simp
  | cons c r ih =>
    intro h
    rw [List.chain'_cons']
    refine ⟨?_, ih fun a b ha hb => h a b (List.mem_cons_of_mem _ ha) (List.mem_cons_of_mem _ hb)⟩
    intro y hy
    exact h c y (List.mem_cons_self _ _) (List.mem_cons_of_mem _ (List.mem_of_mem_head? hy))

theorem tok_chain {t : List Char} (ht : tokOK t = true) : List.Chain' canonPair t := by
  rcases tokOK_cases ht with ⟨c, rfl, _⟩ | hint
  · simp
  · apply chain'_of_mem
    intro a b ha hb
    rw [hint] at ha hb
    exact intTokChar_pair (mem_intChars ha) (mem_intChars hb)

theorem tok_head_not_space {t : List Char} (ht : tokOK t = true) :
    ∀ x ∈ t.head?, isPySpace x = false :=
  fun x hx => tokChar_not_space (tok_chars ht x (List.mem_of_mem_head? hx))

theorem TokList_ne_nil {l : List Char} (h : TokList l) : l ≠ [] := by
  induction h with
  | single t ht => exact tok_ne_nil ht
  | cons t r ht hr ih => simp

theorem TokList_head_not_space {l : List Char} (h : TokList l) :
    ∀ x ∈ l.head?, isPySpace x = false := by
  induction h with
  | single t ht => exact tok_head_not_space ht
  | cons t r ht hr ih =>
    intro x hx
    rw [List.head?_append] at hx
    cases hth : t.head? with
    | none =>
      exact absurd (List.head?_eq_none_iff.mp hth) (tok_ne_nil ht)
    | some y =>
      rw [hth] at hx
      simp only [Option.or_some] at hx
      rcases Option.mem_some_iff.mp hx with rfl
      exact tok_head_not_space ht y (by rw [hth]; rfl)

theorem TokList_last_not_space {l : List Char} (h : TokList l) :
    ∀ x ∈ l.getLast?, isPySpace x = false := by
  induction h with
  | single t ht =>
    intro x hx
    exact tokChar_not_space (tok_chars ht x (List.mem_of_mem_getLast? hx))
  | cons t r ht hr ih =>
    intro x hx
    rw [List.getLast?_append] at hx
    cases hr0 : r with
    | nil => exact absurd hr0 (TokList_ne_nil hr)
    | cons y r' =>
      rw [hr0, List.getLast?_cons_cons] at hx
      cases hgl : (y :: r').getLast? with
      | none => simp at hgl
      | some z =>
        rw [hgl] at hx
        simp only [Option.or_some] at hx
        rcases Option.mem_some_iff.mp hx with rfl
        exact ih z (by rw [hr0, hgl]; rfl)

theorem TokList_space_char {l : List Char} (h : TokList l) :
    ∀ c ∈ l, isPySpace c = true → c = ' ' := by
  induction h with
  | single t ht =>
    intro c hc hsp
    exact absurd hsp (by simp [tokChar_not_space (tok_chars ht c hc)])
  | cons t r ht hr ih =>
    intro c hc hsp
    rcases List.mem_append.mp hc with hct | hcr
    · exact absurd hsp (by simp [tokChar_not_space (tok_chars ht c hct)])
    · rcases List.mem_cons.mp hcr with rfl | hcr2
      · rfl
      · exact ih c hcr2 hsp

theorem TokList_chain {l : List Char} (h : TokList l) : List.Chain' canonPair l := by
  induction h with
  | single t ht => exact tok_chain ht
  | cons t r ht hr ih =>
    rw [List.chain'_append]
    refine ⟨tok_chain ht, ?_, ?_⟩
    · rw [List.chain'_cons']
      refine ⟨?_, ih⟩
      intro y hy
      have hys := TokList_head_not_space hr y hy
      exact ⟨by simp [show isDig ' ' = false from by decide],
             by simp [show isCmd ' ' = false from by decide],
             by simp [hys]⟩
    · intro x hxl y hy
      rcases Option.mem_some_iff.mp (by simpa using hy) with rfl
      have hxs : isPySpace x = false :=
        tokChar_not_space (tok_chars ht x (List.mem_of_mem_getLast? hxl))
      exact ⟨by simp [show isCmd ' ' = false from by decide],
             by simp [show isDig ' ' = false from by decide],
             by simp [hxs]⟩

theorem sub1_fix : ∀ l : List Char,
    List.Chain' (fun a b => (isDig a && isCmd b) = false) l → sub1 l = l := by
  intro l
  induction l with
  | nil => intro _; rfl
  | cons a tl ih =>
    intro h
    cases tl with
    | nil => rfl
    | cons b r =>
      obtain ⟨hab, htl⟩ := List.chain'_cons.mp h
      show sub1 (a :: b :: r) = _
      unfold sub1
      rw [if_neg (by simp [hab]), ih htl]

theorem sub2_fix : ∀ l : List Char,
    List.Chain' (fun a b => (isCmd a && isDig b) = false) l → sub2 l = l := by
  intro l
  induction l with
  | nil => intro _; rfl
  | cons a tl ih =>
    intro h
    cases tl with
    | nil => rfl
    | cons b r =>
      obtain ⟨hab, htl⟩ := List.chain'_cons.mp h
      show sub2 (a :: b :: r) = _
      unfold sub2
      rw [if_neg (by simp [hab]), ih htl]

theorem collWsGo_true_eq_false {r : List Char}
    (h : ∀ x ∈ r.head?, isPySpace x = false) : collWsGo true r = collWsGo false r := by
  cases r with
  | nil => rfl
  | cons d r' =>
    have hd : isPySpace d = false := h d rfl
    simp [collWsGo, hd]

theorem collWs_fix : ∀ l : List Char,
    (∀ c ∈ l, isPySpace c = true → c = ' ') →
    List.Chain' (fun a b => (isPySpace a && isPySpace b) = false) l →
    collapseWs l = l := by
  intro l
  induction l with
  | nil => intro _ _; rfl
  | cons c r ih =>
    intro hsp hch
    have ihr := ih (fun x hx hs => hsp x (List.mem_cons_of_mem _ hx) hs) hch.tail
    by_cases hc : isPySpace c = true
    · have hceq : c = ' ' := hsp c (List.mem_cons_self _ _) hc
      have hhead : ∀ x ∈ r.head?, isPySpace x = false := by
        intro x hx
        have hp := (List.chain'_cons'.mp hch).1 x hx
        simpa [hc] using hp
      show collWsGo false (c :: r) = c :: r
      unfold collWsGo
      rw [if_pos hc, if_neg (by simp)]
      rw [collWsGo_true_eq_false hhead]
      show ' ' :: collapseWs r = c :: r
      rw [ihr, hceq]
    · show collWsGo false (c :: r) = c :: r
      unfold collWsGo
      rw [if_neg hc]
      rw [show collWsGo false r = r from ihr]

theorem dropWhile_fix {p : Char → Bool} {l : List Char}
    (h : ∀ x ∈ l.head?, p x = false) : l.dropWhile p = l := by
  cases l with
  | nil => rfl
  | cons c r => rw [List.dropWhile_cons_of_neg (by simp [h c rfl])]

theorem pyStrip_fix {l : List Char}
    (h1 : ∀ x ∈ l.head?, isPySpace x = false)
    (h2 : ∀ x ∈ l.getLast?, isPySpace x = false) : pyStrip l = l := by
  unfold pyStrip
  rw [dropWhile_fix h1,
      dropWhile_fix (by rw [List.head?_reverse]; exact h2),
      List.reverse_reverse]

theorem TokList_addSpace_fix {l : List Char} (h : TokList l) : addSpace l = l := by
  have hch := TokList_chain h
  unfold addSpace
  rw [sub1_fix l (hch.imp fun a b hh => hh.1),
      sub2_fix l (hch.imp fun a b hh => hh.2.1),
      collWs_fix l (TokList_space_char h) (hch.imp fun a b hh => hh.2.2),
      pyStrip_fix (TokList_head_not_space h) (TokList_last_not_space h)]

theorem TokList_intercalate : ∀ parts : List (List Char), parts ≠ [] →
    (∀ p ∈ parts, tokOK p = true) → TokList ([' '].intercalate parts) := by
  intro parts
  induction parts with
  | nil => intro h _; exact absurd rfl h
  | cons p ps ih =>
    intro _ hall
    cases ps with
    | nil =>
      rw [show [' '].intercalate [p] = p from by simp [List.intercalate]]
      exact TokList.single p (hall p (List.mem_cons_self _ _))
    | cons q ps' =>
      rw [show [' '].intercalate (p :: q :: ps') =
            p ++ ' ' :: [' '].intercalate (q :: ps') from by
          simp [List.intercalate, List.intersperse]]
      exact TokList.cons p _ (hall p (List.mem_cons_self _ _))
        (ih (by simp) fun x hx => hall x (List.mem_cons_of_mem _ hx))

/-- C3 counterexample: canonicalization is not idempotent on arbitrary
input: on `"1.2.3"` the first pass produces `"1.3"` (the leftover dot
glues a new decimal token) and the second pass produces `"1"`. -/
theorem claim_C3_counterexample :
    canonize (canonize (("1.2.3").toList)) ≠ canonize (("1.2.3").toList) := by
  decide

/-- C3 amended: one canonicalization pass is the identity on every
string in canonical form — command letters and canonical integer tokens
separated by single spaces (§4.5's output grammar).  Consequently,
applying the round and space-normalize steps twice yields the same
string as once whenever the first application lands in canonical form;
on arbitrary strings idempotence fails (see the counterexample). -/
theorem claim_C3_amended :
    (∀ l : List Char, canonForm l = true → canonize l = l) ∧
    (∀ s : List Char, canonForm (canonize s) = true →
      canonize (canonize s) = canonize s) := by
  have main : ∀ l : List Char, canonForm l = true → canonize l = l := by
    intro l h
    unfold canonForm at h
    have hor : l.isEmpty = true ∨ (l.splitOn ' ').all (fun t => tokOK t) = true := by
      simpa using h
    rcases hor with hemp | hall
    · rw [show l = [] from by simpa using hemp]
      rfl
    · have hparts : ∀ p ∈ l.splitOn ' ', tokOK p = true := List.all_eq_true.mp hall
      cases hps : l.splitOn ' ' with
      | nil =>
        have hl : l = [] := by
          have hint := List.intercalate_splitOn l ' '
          rw [hps] at hint
          simpa [List.intercalate] using hint.symm
        rw [hl]
        rfl
      | cons p ps =>
        have htl : TokList l := by
          have hint := List.intercalate_splitOn l ' '
          rw [hps] at hint
          rw [← hint]
          exact TokList_intercalate (p :: ps) (by simp)
            (fun x hx => hparts x (by rw [hps]; exact hx))
        unfold canonize
        rw [TokList_round_fix htl, TokList_addSpace_fix htl]
  exact ⟨main, fun s hs => main (canonize s) hs⟩

theorem claim_C3_amended_witness :
    canonForm (("M 11 20").toList) = true ∧
    canonize (("M 11 20").toList) = ("M 11 20").toList ∧
    canonForm (canonize (("M10 20").toList)) = true ∧
    canonize (canonize (("M10 20").toList)) = canonize (("M10 20").toList) :=
  ⟨by decide, claim_C3_amended.1 _ (by decide), by decide,
   claim_C3_amended.2 _ (by decide)⟩

end TTFSVG
